import Mathlib

/-!
# Bitcask keydir (`c_src/bitcask_nifs.c`)

A shallow embedding of the keydir NIFs: the in-memory index that maps every live key to the
location of its latest value.

Conventions of the embedding.

* A `bitcask_keydir_handle` is the C struct: the uthash table `keydir` and the two `size_t`
  counters. The table is represented by its application-order list (the chain of `hh.next`
  pointers starting at the head pointer `handle->keydir`); a pointer to an entry is the position
  of the entry in that chain and the null pointer is `none`.
* Every NIF is modelled after its arguments have been marshalled (`enif_get_resource`,
  `enif_inspect_binary`, `enif_get_uint`, `enif_get_ulong` all succeeded); the `badarg` branch
  belongs to the argument decoder. A NIF that mutates the resource returns the new handle next to
  its result term.
* `uint32_t`/`uint64_t` fields are only stored and compared, never computed with, and are natural
  numbers. The `uint16_t` field `key_sz` is assigned from a `size_t` and is reduced modulo `2^16`.
  The `size_t` counters count entries and key bytes that are resident in memory at the same time,
  so `++` and `+=` cannot wrap; `--` and `-=` are applied for an entry that was found, whose
  share was added before, and are natural-number subtraction.
-/

namespace Bitcask

/-- One byte of a binary. -/
abbrev Byte := Fin 256

/-- An `ErlNifBinary`: `data` is the list, `size` its length. -/
abbrev ErlNifBinary := List Byte

/-- The struct `bitcask_keydir_entry` without its `hh` handle; `key` holds the bytes that were
copied behind the header. -/
structure bitcask_keydir_entry where
  file_id : Nat
  value_sz : Nat
  value_pos : Nat
  tstamp : Nat
  key_sz : Nat
  key : List Byte
  deriving DecidableEq, Repr

/-- The struct `bitcask_keydir_handle`. -/
structure bitcask_keydir_handle where
  keydir : List bitcask_keydir_entry
  key_count : Nat
  key_bytes : Nat
  deriving DecidableEq, Repr

/-- Number of values of the `uint16_t` field `key_sz`. -/
def UINT16_RANGE : Nat := 65536

/-- The key under which uthash knows an entry: `hh.keylen = key_sz` bytes starting at `hh.key`,
the address of the field `key`. -/
def hh_key (e : bitcask_keydir_entry) : List Byte := e.key.take e.key_sz

/-- Modelled from the spec: the comparison made by the uthash macro `HASH_FIND` (the header
`uthash.h` is not among the sources). The spec describes a chained hash table keyed by the full
byte sequence; an entry is a hit when its stored key length equals the length looked for and its
key bytes equal the bytes looked for. -/
def hh_match (e : bitcask_keydir_entry) (bin : ErlNifBinary) : Bool :=
  e.key_sz == bin.length && hh_key e == bin

/-- Modelled from the spec: `KEYDIR_HASH_FIND(head, bin, out)`, that is
`HASH_FIND(hh, head, bin.data, bin.size, out)` of `uthash.h`, which is not among the sources.
The result is a pointer to a matching entry or null. Should several entries match, the first of
the chain is taken; which of them uthash finds depends on the order inside its buckets. -/
def KEYDIR_HASH_FIND : List bitcask_keydir_entry → ErlNifBinary → Option Nat
  | [], _ => none
  | e :: es, bin =>
    if hh_match e bin then some 0 else (KEYDIR_HASH_FIND es bin).map (· + 1)

/-- Modelled from the spec: `KEYDIR_HASH_ADD(head, entry)`, that is
`HASH_ADD(hh, head, key, entry->key_sz, entry)` of `uthash.h`, which is not among the sources.
The entry is linked behind the last entry of the chain; no lookup is made. -/
def KEYDIR_HASH_ADD (head : List bitcask_keydir_entry) (entry : bitcask_keydir_entry) :
    List bitcask_keydir_entry :=
  head ++ [entry]

/-- Modelled from the spec: `HASH_DEL(head, entry)` of `uthash.h`, which is not among the
sources. The entry pointed to is unlinked; the head moves on when the head is unlinked. -/
def HASH_DEL (head : List bitcask_keydir_entry) (entry : Nat) : List bitcask_keydir_entry :=
  head.eraseIdx entry

/-- Result terms of `keydir_put`. -/
inductive put_result where
  | ok
  | already_exists
  deriving DecidableEq, Repr

/-- Result terms of `keydir_get`: the tuple `{bitcask_entry, Key, FileId, ValueSz, ValuePos,
Tstamp}` or the atom `not_found`. -/
inductive get_result where
  | bitcask_entry (key : ErlNifBinary) (file_id value_sz value_pos tstamp : Nat)
  | not_found
  deriving DecidableEq, Repr

/-- Result term of `keydir_remove`. -/
inductive remove_result where
  | ok
  deriving DecidableEq, Repr

/-- The function `bitcask_nifs_keydir_new`. -/
def bitcask_nifs_keydir_new : bitcask_keydir_handle :=
  { keydir := [], key_count := 0, key_bytes := 0 }

/-- The function `bitcask_nifs_keydir_put`. -/
def bitcask_nifs_keydir_put (handle : bitcask_keydir_handle) (key : ErlNifBinary)
    (file_id value_sz value_pos tstamp : Nat) : put_result × bitcask_keydir_handle :=
  match KEYDIR_HASH_FIND handle.keydir key with
  | none =>
    let new_entry : bitcask_keydir_entry :=
      { file_id := file_id, value_sz := value_sz, value_pos := value_pos, tstamp := tstamp,
        key_sz := key.length % UINT16_RANGE, key := key }
    (put_result.ok,
      { keydir := KEYDIR_HASH_ADD handle.keydir new_entry,
        key_count := handle.key_count + 1,
        key_bytes := handle.key_bytes + key.length })
  | some old_entry =>
    match handle.keydir[old_entry]? with
    | none => (put_result.already_exists, handle) -- not reached: the lookup returns a live entry
    | some old =>
      if old.tstamp ≤ tstamp then
        (put_result.ok,
          { handle with
            keydir := handle.keydir.set old_entry
              { old with file_id := file_id, value_sz := value_sz, value_pos := value_pos,
                         tstamp := tstamp } })
      else
        (put_result.already_exists, handle)

/-- The function `bitcask_nifs_keydir_get`. -/
def bitcask_nifs_keydir_get (handle : bitcask_keydir_handle) (key : ErlNifBinary) : get_result :=
  match (KEYDIR_HASH_FIND handle.keydir key).bind (handle.keydir[·]?) with
  | some entry =>
    get_result.bitcask_entry key entry.file_id entry.value_sz entry.value_pos entry.tstamp
  | none => get_result.not_found

/-- The function `bitcask_nifs_keydir_remove`. -/
def bitcask_nifs_keydir_remove (handle : bitcask_keydir_handle) (key : ErlNifBinary) :
    remove_result × bitcask_keydir_handle :=
  match KEYDIR_HASH_FIND handle.keydir key with
  | some entry =>
    match handle.keydir[entry]? with
    | some e =>
      (remove_result.ok,
        { keydir := HASH_DEL handle.keydir entry,
          key_count := handle.key_count - 1,
          key_bytes := handle.key_bytes - e.key_sz })
    | none => (remove_result.ok, handle) -- not reached: the lookup returns a live entry
  | none => (remove_result.ok, handle)

/-- The function `bitcask_nifs_keydir_info`. -/
def bitcask_nifs_keydir_info (handle : bitcask_keydir_handle) : Nat × Nat :=
  (handle.key_count, handle.key_bytes)

/-- Result terms of `keydir_itr`: the head pointer as an unsigned long, or `not_found`. -/
inductive itr_result where
  | cursor (entry : Nat)
  | not_found
  deriving DecidableEq, Repr

/-- Result terms of `keydir_itr_next`: the pair of the entry tuple and the next pointer (null is
`none`), or one of the atoms `not_found` and `allocation_error`. -/
inductive itr_next_result where
  | entry (key : ErlNifBinary) (file_id value_sz value_pos tstamp : Nat) (next : Option Nat)
  | not_found
  | allocation_error
  deriving DecidableEq, Repr

/-- The function `bitcask_nifs_keydir_itr`: the head pointer `handle->keydir` is non-null exactly
when the chain has an entry. -/
def bitcask_nifs_keydir_itr (handle : bitcask_keydir_handle) : itr_result :=
  if handle.keydir ≠ [] then itr_result.cursor 0 else itr_result.not_found

/-- The function `bitcask_nifs_keydir_itr_next`. It receives nothing but the pointer; `mem` is the
chain the pointer points into and `enif_alloc_binary` tells whether the allocation of the key
binary succeeds. Dereferencing a pointer that is not an entry of the chain is undefined
(`none`). -/
def bitcask_nifs_keydir_itr_next (mem : List bitcask_keydir_entry) (enif_alloc_binary : Bool)
    (entry : Option Nat) : Option itr_next_result :=
  match entry with
  | some p =>
    match mem[p]? with
    | none => none
    | some e =>
      if !enif_alloc_binary then
        some itr_next_result.allocation_error
      else
        some (itr_next_result.entry (hh_key e) e.file_id e.value_sz e.value_pos e.tstamp
          (if p + 1 < mem.length then some (p + 1) else none))
  | none => some itr_next_result.not_found

/-- The function `bitcask_nifs_keydir_copy`. The counters are copied. For every entry of the
source chain one block is taken from `enif_alloc` and linked into the new table. The `memcpy`
of the loop is given the pointers `new + sizeof(UT_hash_handle)` and
`curr + sizeof(UT_hash_handle)`, both of type `bitcask_keydir_entry*`, so both are advanced by
`sizeof(UT_hash_handle)` whole entries (see `copy_memcpy`) and the header of the new block is
never written (`copy_memcpy_misses_header`). `enif_alloc n` is the content of the `n`-th block
as `KEYDIR_HASH_ADD` and later lookups find it: its fields are the ones the block had when it
was allocated. -/
def bitcask_nifs_keydir_copy (enif_alloc : Nat → bitcask_keydir_entry)
    (handle : bitcask_keydir_handle) : bitcask_keydir_handle :=
  { keydir := (List.range handle.keydir.length).foldl
      (fun new_keydir n => KEYDIR_HASH_ADD new_keydir (enif_alloc n)) [],
    key_count := handle.key_count,
    key_bytes := handle.key_bytes }

/-- Byte address denoted by `p + n` for a pointer `p` of type `bitcask_keydir_entry*`. -/
def entry_ptr_add (sizeof_entry p n : Nat) : Nat := p + n * sizeof_entry

/-- The library function `memcpy` on a flat byte memory. -/
def memcpy (mem : Nat → Byte) (dst src n : Nat) : Nat → Byte :=
  fun a => if dst ≤ a ∧ a < dst + n then mem (src + (a - dst)) else mem a

/-- The `memcpy` call in the loop of `bitcask_nifs_keydir_copy`, for the entry at address `curr`
with key size `key_sz` and the new block at address `new`. The sizes of `UT_hash_handle` and of
`bitcask_keydir_entry` come from headers that are not among the sources and are parameters. -/
def copy_memcpy (sizeof_hh sizeof_entry : Nat) (mem : Nat → Byte) (new curr key_sz : Nat) :
    Nat → Byte :=
  memcpy mem (entry_ptr_add sizeof_entry new sizeof_hh) (entry_ptr_add sizeof_entry curr sizeof_hh)
    (sizeof_entry + key_sz)

/-- The parameters of one call of `keydir_put` besides the handle and the key. -/
structure put_args where
  file_id : Nat
  value_sz : Nat
  value_pos : Nat
  tstamp : Nat
  deriving DecidableEq, Repr

/-- A sequence of calls of `bitcask_nifs_keydir_put` with one key: the result term of every call
and the handle after it. -/
def put_trace (handle : bitcask_keydir_handle) (key : ErlNifBinary) :
    List put_args → List (put_result × bitcask_keydir_handle)
  | [] => []
  | a :: rest =>
    let r := bitcask_nifs_keydir_put handle key a.file_id a.value_sz a.value_pos a.tstamp
    r :: put_trace r.2 key rest

/-- The handle after a sequence of calls of `bitcask_nifs_keydir_put` with one key. -/
def put_all (handle : bitcask_keydir_handle) (key : ErlNifBinary) :
    List put_args → bitcask_keydir_handle
  | [] => handle
  | a :: rest =>
    put_all (bitcask_nifs_keydir_put handle key a.file_id a.value_sz a.value_pos a.tstamp).2
      key rest

/-- Specification of acceptance, in the words of the spec: a call is accepted when its tstamp is
`>=` the tstamp of every previously accepted call (`accepted` lists those). -/
def spec_accepted : List Nat → List put_args → List Bool
  | _, [] => []
  | accepted, a :: rest =>
    if ∀ t ∈ accepted, t ≤ a.tstamp then true :: spec_accepted (a.tstamp :: accepted) rest
    else false :: spec_accepted accepted rest

/-- The calls of a sequence that the specification accepts. -/
def spec_accepted_calls (accepted : List Nat) (calls : List put_args) : List put_args :=
  ((calls.zip (spec_accepted accepted calls)).filter (fun c => c.2)).map (fun c => c.1)

/-- Specification of the final entry: the parameters of the last accepted call. -/
def spec_final (calls : List put_args) : Option put_args :=
  (spec_accepted_calls [] calls).getLast?

/-- The handles before the calls of a sequence of puts with one key, and the handle after the
last one. -/
def put_states (handle : bitcask_keydir_handle) (key : ErlNifBinary) (calls : List put_args) :
    List bitcask_keydir_handle :=
  handle :: (put_trace handle key calls).map Prod.snd

/-- Result term of a call of `keydir_put` that the specification accepts or rejects. -/
def spec_result (accepted : Bool) : put_result :=
  if accepted then put_result.ok else put_result.already_exists

/-- A mutating call on a keydir. -/
inductive keydir_op where
  | put (key : ErlNifBinary) (file_id value_sz value_pos tstamp : Nat)
  | remove (key : ErlNifBinary)
  deriving DecidableEq, Repr

/-- The key of a mutating call. -/
def keydir_op.key : keydir_op → ErlNifBinary
  | keydir_op.put key _ _ _ _ => key
  | keydir_op.remove key => key

/-- The handle after one mutating call. -/
def apply_op (handle : bitcask_keydir_handle) : keydir_op → bitcask_keydir_handle
  | keydir_op.put key file_id value_sz value_pos tstamp =>
    (bitcask_nifs_keydir_put handle key file_id value_sz value_pos tstamp).2
  | keydir_op.remove key => (bitcask_nifs_keydir_remove handle key).2

/-- The handle after a sequence of mutating calls. -/
def run_ops (handle : bitcask_keydir_handle) (ops : List keydir_op) : bitcask_keydir_handle :=
  ops.foldl apply_op handle

/-- The data model of the spec for a store: no two entries share a key, every entry records the
length of its key, `key_count` is the number of entries and `key_bytes` the sum of the lengths of
their keys. -/
def keydir_wf (handle : bitcask_keydir_handle) : Prop :=
  (handle.keydir.map hh_key).Nodup ∧
  (∀ e ∈ handle.keydir, e.key_sz = e.key.length) ∧
  handle.key_count = handle.keydir.length ∧
  handle.key_bytes = (handle.keydir.map (fun e => (hh_key e).length)).sum

instance (handle : bitcask_keydir_handle) : Decidable (keydir_wf handle) := by
  unfold keydir_wf
  infer_instance

/-- How a traversal ended. -/
inductive traversal_end where
  | not_found
  | allocation_error
  | undefined
  | out_of_fuel
  deriving DecidableEq, Repr

/-- Repeated `keydir_itr_next` on the cursors it returns, until a call returns no cursor: the
entries yielded and the way the traversal ended. `alloc n` tells whether the allocation made by
the call number `n` succeeds. -/
def itr_loop (mem : List bitcask_keydir_entry) (alloc : Nat → Bool) :
    Nat → Nat → Option Nat → List get_result × traversal_end
  | 0, _, _ => ([], traversal_end.out_of_fuel)
  | fuel + 1, n, cursor =>
    match bitcask_nifs_keydir_itr_next mem (alloc n) cursor with
    | none => ([], traversal_end.undefined)
    | some itr_next_result.not_found => ([], traversal_end.not_found)
    | some itr_next_result.allocation_error => ([], traversal_end.allocation_error)
    | some (itr_next_result.entry key file_id value_sz value_pos tstamp next) =>
      let r := itr_loop mem alloc fuel (n + 1) next
      (get_result.bitcask_entry key file_id value_sz value_pos tstamp :: r.1, r.2)

/-- A traversal of a store that is not mutated meanwhile: `keydir_itr`, then repeated
`keydir_itr_next`. -/
def keydir_traverse (handle : bitcask_keydir_handle) (alloc : Nat → Bool) (fuel : Nat) :
    List get_result × traversal_end :=
  match bitcask_nifs_keydir_itr handle with
  | itr_result.not_found => ([], traversal_end.not_found)
  | itr_result.cursor entry => itr_loop handle.keydir alloc fuel 0 (some entry)

/-- The tuple that `keydir_get` and `keydir_itr_next` build for an entry. -/
def entry_term (e : bitcask_keydir_entry) : get_result :=
  get_result.bitcask_entry (hh_key e) e.file_id e.value_sz e.value_pos e.tstamp

/-- A key of `2^16 + 1` bytes: the byte `"a"` and then `2^16` zero bytes. -/
def long_key : ErlNifBinary := 97 :: List.replicate 65536 0

/-- The key `"k1"`. -/
def key_k1 : ErlNifBinary := [107, 49]

/-- The key `"k2"`. -/
def key_k2 : ErlNifBinary := [107, 50]

/-- Content of a block of zero-filled memory, read as an entry. -/
def zero_block : bitcask_keydir_entry :=
  { file_id := 0, value_sz := 0, value_pos := 0, tstamp := 0, key_sz := 0, key := [] }

/-- The store that holds only `"k1"`, put with `(1,10,0,100)`. -/
def store_k1 : bitcask_keydir_handle :=
  (bitcask_nifs_keydir_put bitcask_nifs_keydir_new key_k1 1 10 0 100).2

/-- A flat memory in which the 82 bytes of the entry of `"k1"` (an 80 byte struct and 2 key
bytes) start at address 5480 and are all `1`, and every other byte is `0`. -/
def heap_k1 : Nat → Byte :=
  fun a => if 5480 ≤ a ∧ a < 5562 then 1 else 0

/-- The key of a tuple `{bitcask_entry, Key, ...}`. -/
def get_result.key : get_result → ErlNifBinary
  | get_result.bitcask_entry key _ _ _ _ => key
  | get_result.not_found => []

/-- The tstamp stored for a key, as `keydir_get` reports it. -/
def stored_tstamp (handle : bitcask_keydir_handle) (key : ErlNifBinary) : Option Nat :=
  match bitcask_nifs_keydir_get handle key with
  | get_result.bitcask_entry _ _ _ _ tstamp => some tstamp
  | get_result.not_found => none

/-- The type of the field `key_sz`: every stored key size is a `uint16_t` value. -/
def key_sz_in_range (handle : bitcask_keydir_handle) : Prop :=
  ∀ e ∈ handle.keydir, e.key_sz < UINT16_RANGE

instance (handle : bitcask_keydir_handle) : Decidable (key_sz_in_range handle) := by
  unfold key_sz_in_range
  infer_instance

/-- The function `bitcask_nifs_keydir_put` when `enif_alloc` may return the null pointer
(`enif_alloc = false`). The pointer is not tested: the fields of `new_entry` are assigned
through it, which is undefined for the null pointer (`none`). -/
def bitcask_nifs_keydir_put_alloc (enif_alloc : Bool) (handle : bitcask_keydir_handle)
    (key : ErlNifBinary) (file_id value_sz value_pos tstamp : Nat) :
    Option (put_result × bitcask_keydir_handle) :=
  match KEYDIR_HASH_FIND handle.keydir key with
  | none =>
    if enif_alloc then some (bitcask_nifs_keydir_put handle key file_id value_sz value_pos tstamp)
    else none
  | some _ => some (bitcask_nifs_keydir_put handle key file_id value_sz value_pos tstamp)

/-- The function `bitcask_nifs_keydir_copy` when `enif_alloc_resource` or the `n`-th call of
`enif_alloc` may return the null pointer (`false`). Neither pointer is tested: the counters are
assigned through `new_handle` and `KEYDIR_HASH_ADD` reads `new->key_sz`, which is undefined for
the null pointer (`none`). -/
def bitcask_nifs_keydir_copy_alloc (enif_alloc_resource : Bool) (enif_alloc_ok : Nat → Bool)
    (enif_alloc : Nat → bitcask_keydir_entry) (handle : bitcask_keydir_handle) :
    Option bitcask_keydir_handle :=
  if !enif_alloc_resource then none
  else if (List.range handle.keydir.length).all enif_alloc_ok then
    some (bitcask_nifs_keydir_copy enif_alloc handle)
  else none

/-- The tuples a traversal of a store yields when every allocation succeeds. -/
def keydir_traversal (handle : bitcask_keydir_handle) : List get_result :=
  (keydir_traverse handle (fun _ => true) (handle.keydir.length + 1)).1

/-- One mutating call, numbered `nop.1`, on a store together with the list that holds, for every
entry of the chain, the number of the call that created it: a put that finds no entry creates
one, a remove that finds an entry destroys it. -/
def created_step (st : bitcask_keydir_handle × List Nat) (nop : Nat × keydir_op) :
    bitcask_keydir_handle × List Nat :=
  (apply_op st.1 nop.2,
    match nop.2 with
    | keydir_op.put key _ _ _ _ =>
      match KEYDIR_HASH_FIND st.1.keydir key with
      | none => st.2 ++ [nop.1]
      | some _ => st.2
    | keydir_op.remove key =>
      match KEYDIR_HASH_FIND st.1.keydir key with
      | some entry => st.2.eraseIdx entry
      | none => st.2)

/-- A sequence of mutating calls on the new store, numbered from 0: the store they leave and,
for every entry of its chain, the number of the call that created it. -/
def run_created (ops : List keydir_op) : bitcask_keydir_handle × List Nat :=
  ops.enum.foldl created_step (bitcask_nifs_keydir_new, [])

/-- The key of a put is shorter than `2^16` bytes, the range of `key_sz`; the key of a remove
may have any length. -/
def put_key_in_range : keydir_op → Bool
  | keydir_op.put key _ _ _ _ => decide (key.length < UINT16_RANGE)
  | keydir_op.remove _ => true

/-! ## Lemmas on the lookup -/

theorem find_none_iff (l : List bitcask_keydir_entry) (k : ErlNifBinary) :
    KEYDIR_HASH_FIND l k = none ↔ ∀ e ∈ l, hh_match e k = false := by
  induction l with
  | nil => simp [KEYDIR_HASH_FIND]
  | cons a l ih =>
    by_cases h : hh_match a k = true
    · simp [KEYDIR_HASH_FIND, h]
    · simp [KEYDIR_HASH_FIND, h, ih]

theorem find_some_get (l : List bitcask_keydir_entry) (k : ErlNifBinary) (i : Nat)
    (h : KEYDIR_HASH_FIND l k = some i) : ∃ e, l[i]? = some e ∧ hh_match e k = true := by
  induction l generalizing i with
  | nil => simp [KEYDIR_HASH_FIND] at h
  | cons a l ih =>
    by_cases hm : hh_match a k = true
    · simp [KEYDIR_HASH_FIND, hm] at h
      subst h
      exact ⟨a, by simp, hm⟩
    · simp [KEYDIR_HASH_FIND, hm] at h
      obtain ⟨j, hj, rfl⟩ := h
      obtain ⟨e, he, hme⟩ := ih j hj
      exact ⟨e, by simpa using he, hme⟩

theorem find_append_of_some (l : List bitcask_keydir_entry) (e : bitcask_keydir_entry)
    (k : ErlNifBinary) (i : Nat) (h : KEYDIR_HASH_FIND l k = some i) :
    KEYDIR_HASH_FIND (l ++ [e]) k = some i := by
  induction l generalizing i with
  | nil => simp [KEYDIR_HASH_FIND] at h
  | cons a l ih =>
    by_cases hm : hh_match a k = true
    · simpa [KEYDIR_HASH_FIND, hm] using h
    · simp only [KEYDIR_HASH_FIND, hm, Bool.false_eq_true, if_false, Option.map_eq_some'] at h
      obtain ⟨j, hj, rfl⟩ := h
      simp [KEYDIR_HASH_FIND, hm, ih j hj]

theorem find_append_of_none (l : List bitcask_keydir_entry) (e : bitcask_keydir_entry)
    (k : ErlNifBinary) (h : KEYDIR_HASH_FIND l k = none) :
    KEYDIR_HASH_FIND (l ++ [e]) k = if hh_match e k then some l.length else none := by
  induction l with
  | nil => simp [KEYDIR_HASH_FIND]
  | cons a l ih =>
    by_cases hm : hh_match a k = true
    · simp [KEYDIR_HASH_FIND, hm] at h
    · simp only [KEYDIR_HASH_FIND, hm, Bool.false_eq_true, if_false, Option.map_eq_none'] at h
      have ih2 := ih h
      by_cases he : hh_match e k = true
      · simp only [he, if_true] at ih2
        simp [KEYDIR_HASH_FIND, hm, ih2, he]
      · simp only [he, Bool.false_eq_true, if_false] at ih2
        simp [KEYDIR_HASH_FIND, hm, ih2, he]

theorem find_set (l : List bitcask_keydir_entry) (i : Nat) (old e : bitcask_keydir_entry)
    (k : ErlNifBinary) (hi : l[i]? = some old) (hsz : e.key_sz = old.key_sz)
    (hkey : e.key = old.key) :
    KEYDIR_HASH_FIND (l.set i e) k = KEYDIR_HASH_FIND l k := by
  induction l generalizing i with
  | nil => simp
  | cons a l ih =>
    cases i with
    | zero =>
      simp at hi
      subst hi
      have : hh_match e k = hh_match a k := by simp [hh_match, hh_key, hsz, hkey]
      simp [KEYDIR_HASH_FIND, this]
    | succ j =>
      simp at hi
      simp [KEYDIR_HASH_FIND, ih j hi]

theorem hh_match_iff (e : bitcask_keydir_entry) (k : ErlNifBinary) :
    hh_match e k = true ↔ e.key_sz = k.length ∧ hh_key e = k := by
  simp [hh_match]

theorem get_of_find_none (h : bitcask_keydir_handle) (k : ErlNifBinary)
    (hf : KEYDIR_HASH_FIND h.keydir k = none) :
    bitcask_nifs_keydir_get h k = get_result.not_found := by
  simp [bitcask_nifs_keydir_get, hf]

theorem get_of_find_some (h : bitcask_keydir_handle) (k : ErlNifBinary) (i : Nat)
    (e : bitcask_keydir_entry) (hf : KEYDIR_HASH_FIND h.keydir k = some i)
    (he : h.keydir[i]? = some e) :
    bitcask_nifs_keydir_get h k =
      get_result.bitcask_entry k e.file_id e.value_sz e.value_pos e.tstamp := by
  simp [bitcask_nifs_keydir_get, hf, he]

theorem get_not_found_iff (h : bitcask_keydir_handle) (k : ErlNifBinary) :
    bitcask_nifs_keydir_get h k = get_result.not_found ↔ KEYDIR_HASH_FIND h.keydir k = none := by
  constructor
  · intro hg
    cases hf : KEYDIR_HASH_FIND h.keydir k with
    | none => rfl
    | some i =>
      obtain ⟨e, he, _⟩ := find_some_get _ _ _ hf
      rw [get_of_find_some h k i e hf he] at hg
      cases hg
  · exact get_of_find_none h k

theorem get_entry_iff (h : bitcask_keydir_handle) (k : ErlNifBinary) (f v p t : Nat) :
    bitcask_nifs_keydir_get h k = get_result.bitcask_entry k f v p t ↔
      ∃ i e, KEYDIR_HASH_FIND h.keydir k = some i ∧ h.keydir[i]? = some e ∧
        e.file_id = f ∧ e.value_sz = v ∧ e.value_pos = p ∧ e.tstamp = t := by
  constructor
  · intro hg
    cases hf : KEYDIR_HASH_FIND h.keydir k with
    | none => rw [get_of_find_none h k hf] at hg; cases hg
    | some i =>
      obtain ⟨e, he, _⟩ := find_some_get _ _ _ hf
      rw [get_of_find_some h k i e hf he] at hg
      injection hg with _ h1 h2 h3 h4
      exact ⟨i, e, rfl, he, h1, h2, h3, h4⟩
  · rintro ⟨i, e, hf, he, rfl, rfl, rfl, rfl⟩
    exact get_of_find_some h k i e hf he

theorem put_of_find_none (h : bitcask_keydir_handle) (k : ErlNifBinary) (f v p t : Nat)
    (hf : KEYDIR_HASH_FIND h.keydir k = none) :
    bitcask_nifs_keydir_put h k f v p t =
      (put_result.ok,
        { keydir := h.keydir ++
            [{ file_id := f, value_sz := v, value_pos := p, tstamp := t,
               key_sz := k.length % UINT16_RANGE, key := k }],
          key_count := h.key_count + 1,
          key_bytes := h.key_bytes + k.length }) := by
  simp [bitcask_nifs_keydir_put, hf, KEYDIR_HASH_ADD]

theorem put_of_find_some (h : bitcask_keydir_handle) (k : ErlNifBinary) (f v p t : Nat)
    (i : Nat) (old : bitcask_keydir_entry) (hf : KEYDIR_HASH_FIND h.keydir k = some i)
    (he : h.keydir[i]? = some old) :
    bitcask_nifs_keydir_put h k f v p t =
      if old.tstamp ≤ t then
        (put_result.ok,
          { keydir := h.keydir.set i
              { file_id := f, value_sz := v, value_pos := p, tstamp := t,
                key_sz := old.key_sz, key := old.key },
            key_count := h.key_count, key_bytes := h.key_bytes })
      else (put_result.already_exists, h) := by
  simp [bitcask_nifs_keydir_put, hf, he]

theorem long_key_length : long_key.length = 65537 := by
  unfold long_key
  rw [List.length_cons, List.length_replicate]

/-! ## C2: insertion of an absent key -/

/-- A key of `2^16 + 1` bytes is stored under its first byte: after the `put` the lookup of the
key itself fails. -/
theorem put_key_65537 (k : ErlNifBinary) (hk : k.length = 65537) :
    bitcask_nifs_keydir_get bitcask_nifs_keydir_new k = get_result.not_found ∧
    (bitcask_nifs_keydir_put bitcask_nifs_keydir_new k 1 1 0 5).1 = put_result.ok ∧
    bitcask_nifs_keydir_get (bitcask_nifs_keydir_put bitcask_nifs_keydir_new k 1 1 0 5).2 k =
      get_result.not_found := by
  have hf : KEYDIR_HASH_FIND bitcask_nifs_keydir_new.keydir k = none := rfl
  refine ⟨get_of_find_none _ _ hf, ?_, ?_⟩
  · rw [put_of_find_none _ _ _ _ _ _ hf]
  · rw [put_of_find_none _ _ _ _ _ _ hf]
    apply get_of_find_none
    simp [bitcask_nifs_keydir_new, KEYDIR_HASH_FIND, hh_match, hk, UINT16_RANGE]

/-- C2 as stated fails: the key of `2^16 + 1` bytes is absent from the new store, `put` answers
`ok`, and the following `get` of the same key answers `not_found`. -/
theorem put_absent_long_key_counterexample :
    bitcask_nifs_keydir_get bitcask_nifs_keydir_new long_key = get_result.not_found ∧
    (bitcask_nifs_keydir_put bitcask_nifs_keydir_new long_key 1 1 0 5).1 = put_result.ok ∧
    bitcask_nifs_keydir_get
      (bitcask_nifs_keydir_put bitcask_nifs_keydir_new long_key 1 1 0 5).2 long_key =
      get_result.not_found :=
  put_key_65537 long_key long_key_length

/-- C2 (amended): for every store `S`, every key `k` shorter than `2^16` bytes that is absent
from `S` and all parameters, `put` answers `ok`, a following `get k` answers the entry with
exactly those four values, `key_count` has increased by 1 and `key_bytes` by the length of
`k`. -/
theorem put_absent_inserts (S : bitcask_keydir_handle) (k : ErlNifBinary)
    (file_id value_sz value_pos tstamp : Nat)
    (habs : bitcask_nifs_keydir_get S k = get_result.not_found)
    (hlen : k.length < UINT16_RANGE) :
    (bitcask_nifs_keydir_put S k file_id value_sz value_pos tstamp).1 = put_result.ok ∧
    bitcask_nifs_keydir_get (bitcask_nifs_keydir_put S k file_id value_sz value_pos tstamp).2 k =
      get_result.bitcask_entry k file_id value_sz value_pos tstamp ∧
    (bitcask_nifs_keydir_put S k file_id value_sz value_pos tstamp).2.key_count =
      S.key_count + 1 ∧
    (bitcask_nifs_keydir_put S k file_id value_sz value_pos tstamp).2.key_bytes =
      S.key_bytes + k.length := by
  have hf := (get_not_found_iff S k).1 habs
  rw [put_of_find_none _ _ _ _ _ _ hf]
  refine ⟨rfl, ?_, rfl, rfl⟩
  have hm : hh_match
      { file_id := file_id, value_sz := value_sz, value_pos := value_pos, tstamp := tstamp,
        key_sz := k.length % UINT16_RANGE, key := k } k = true := by
    simp [hh_match, hh_key, Nat.mod_eq_of_lt hlen]
  refine (get_entry_iff _ _ _ _ _ _).2
    ⟨S.keydir.length,
      { file_id := file_id, value_sz := value_sz, value_pos := value_pos, tstamp := tstamp,
        key_sz := k.length % UINT16_RANGE, key := k }, ?_, ?_, rfl, rfl, rfl, rfl⟩
  · simp only [find_append_of_none _ _ _ hf, hm, if_true]
  · simp

/-- Witness of `put_absent_inserts`: the key `"k1"` put into the new store. -/
theorem put_absent_inserts_witness :
    bitcask_nifs_keydir_get bitcask_nifs_keydir_new key_k1 = get_result.not_found ∧
    key_k1.length < UINT16_RANGE ∧
    (bitcask_nifs_keydir_put bitcask_nifs_keydir_new key_k1 1 10 0 100).1 = put_result.ok ∧
    bitcask_nifs_keydir_get
      (bitcask_nifs_keydir_put bitcask_nifs_keydir_new key_k1 1 10 0 100).2 key_k1 =
      get_result.bitcask_entry key_k1 1 10 0 100 ∧
    (bitcask_nifs_keydir_put bitcask_nifs_keydir_new key_k1 1 10 0 100).2.key_count = 0 + 1 ∧
    (bitcask_nifs_keydir_put bitcask_nifs_keydir_new key_k1 1 10 0 100).2.key_bytes = 0 + 2 :=
  ⟨by decide, by decide,
    put_absent_inserts bitcask_nifs_keydir_new key_k1 1 10 0 100 (by decide) (by decide)⟩

/-! ## C3: overwriting put -/

/-- C3: for every store in which key `k` is present with stored timestamp `T`, and every put to
`k` with `tstamp >= T` (equality included), `put` answers `ok`, a following `get k` answers
exactly the incoming file_id, value_sz, value_pos and tstamp, and `key_count` and `key_bytes`
are unchanged. -/
theorem put_present_overwrites (S : bitcask_keydir_handle) (k : ErlNifBinary)
    (f0 v0 p0 T file_id value_sz value_pos tstamp : Nat)
    (hpres : bitcask_nifs_keydir_get S k = get_result.bitcask_entry k f0 v0 p0 T)
    (hts : T ≤ tstamp) :
    (bitcask_nifs_keydir_put S k file_id value_sz value_pos tstamp).1 = put_result.ok ∧
    bitcask_nifs_keydir_get (bitcask_nifs_keydir_put S k file_id value_sz value_pos tstamp).2 k =
      get_result.bitcask_entry k file_id value_sz value_pos tstamp ∧
    (bitcask_nifs_keydir_put S k file_id value_sz value_pos tstamp).2.key_count = S.key_count ∧
    (bitcask_nifs_keydir_put S k file_id value_sz value_pos tstamp).2.key_bytes =
      S.key_bytes := by
  obtain ⟨i, old, hf, he, -, -, -, hT⟩ := (get_entry_iff _ _ _ _ _ _).1 hpres
  have hle : old.tstamp ≤ tstamp := hT ▸ hts
  rw [put_of_find_some _ _ _ _ _ _ i old hf he, if_pos hle]
  refine ⟨rfl, ?_, rfl, rfl⟩
  refine (get_entry_iff _ _ _ _ _ _).2
    ⟨i,
      { file_id := file_id, value_sz := value_sz, value_pos := value_pos, tstamp := tstamp,
        key_sz := old.key_sz, key := old.key }, ?_, ?_, rfl, rfl, rfl, rfl⟩
  · show KEYDIR_HASH_FIND (S.keydir.set i _) k = some i
    refine (find_set S.keydir i old _ k he ?_ ?_).trans hf <;> rfl
  · show (S.keydir.set i _)[i]? = some _
    have hlt : i < S.keydir.length := by
      rcases Nat.lt_or_ge i S.keydir.length with h | h
      · exact h
      · rw [List.getElem?_eq_none h] at he
        cases he
    simp [List.getElem?_set, hlt]

/-- Witness of `put_present_overwrites`, scenario 2 of the spec: `put("k2",1,1,0,5)` and then
`put("k2",2,2,0,5)` both answer `ok` and `get("k2")` answers `(2,2,0,5)`. -/
theorem put_present_overwrites_witness :
    (bitcask_nifs_keydir_put bitcask_nifs_keydir_new key_k2 1 1 0 5).1 = put_result.ok ∧
    bitcask_nifs_keydir_get (bitcask_nifs_keydir_put bitcask_nifs_keydir_new key_k2 1 1 0 5).2
      key_k2 = get_result.bitcask_entry key_k2 1 1 0 5 ∧
    5 ≤ 5 ∧
    (bitcask_nifs_keydir_put (bitcask_nifs_keydir_put bitcask_nifs_keydir_new key_k2 1 1 0 5).2
      key_k2 2 2 0 5).1 = put_result.ok ∧
    bitcask_nifs_keydir_get
      (bitcask_nifs_keydir_put (bitcask_nifs_keydir_put bitcask_nifs_keydir_new key_k2 1 1 0 5).2
        key_k2 2 2 0 5).2 key_k2 = get_result.bitcask_entry key_k2 2 2 0 5 ∧
    (bitcask_nifs_keydir_put (bitcask_nifs_keydir_put bitcask_nifs_keydir_new key_k2 1 1 0 5).2
      key_k2 2 2 0 5).2.key_count = 1 ∧
    (bitcask_nifs_keydir_put (bitcask_nifs_keydir_put bitcask_nifs_keydir_new key_k2 1 1 0 5).2
      key_k2 2 2 0 5).2.key_bytes = 2 :=
  ⟨by decide, by decide, by decide,
    put_present_overwrites (bitcask_nifs_keydir_put bitcask_nifs_keydir_new key_k2 1 1 0 5).2
      key_k2 1 1 0 5 2 2 0 5 (by decide) (by decide)⟩

/-! ## C4: rejected put -/

/-- C4: for every store in which key `k` is present with stored timestamp `T`, and every put to
`k` with `tstamp < T`, `put` answers `already_exists` and the whole store is unchanged (every
entry, `key_count` and `key_bytes`). -/
theorem put_older_rejected (S : bitcask_keydir_handle) (k : ErlNifBinary)
    (f0 v0 p0 T file_id value_sz value_pos tstamp : Nat)
    (hpres : bitcask_nifs_keydir_get S k = get_result.bitcask_entry k f0 v0 p0 T)
    (hts : tstamp < T) :
    bitcask_nifs_keydir_put S k file_id value_sz value_pos tstamp =
      (put_result.already_exists, S) := by
  obtain ⟨i, old, hf, he, -, -, -, hT⟩ := (get_entry_iff _ _ _ _ _ _).1 hpres
  have hlt : ¬ old.tstamp ≤ tstamp := by omega
  rw [put_of_find_some _ _ _ _ _ _ i old hf he, if_neg hlt]

/-- Witness of `put_older_rejected`, scenario 1 of the spec: `put("k1",1,10,0,100)` answers
`ok`, `put("k1",1,20,10,50)` answers `already_exists` and `get("k1")` answers `(1,10,0,100)`. -/
theorem put_older_rejected_witness :
    (bitcask_nifs_keydir_put bitcask_nifs_keydir_new key_k1 1 10 0 100).1 = put_result.ok ∧
    bitcask_nifs_keydir_get (bitcask_nifs_keydir_put bitcask_nifs_keydir_new key_k1 1 10 0 100).2
      key_k1 = get_result.bitcask_entry key_k1 1 10 0 100 ∧
    50 < 100 ∧
    bitcask_nifs_keydir_put (bitcask_nifs_keydir_put bitcask_nifs_keydir_new key_k1 1 10 0 100).2
      key_k1 1 20 10 50 =
      (put_result.already_exists,
        (bitcask_nifs_keydir_put bitcask_nifs_keydir_new key_k1 1 10 0 100).2) ∧
    bitcask_nifs_keydir_get
      (bitcask_nifs_keydir_put
        (bitcask_nifs_keydir_put bitcask_nifs_keydir_new key_k1 1 10 0 100).2
        key_k1 1 20 10 50).2 key_k1 = get_result.bitcask_entry key_k1 1 10 0 100 :=
  ⟨by decide, by decide, by decide,
    put_older_rejected (bitcask_nifs_keydir_put bitcask_nifs_keydir_new key_k1 1 10 0 100).2
      key_k1 1 10 0 100 1 20 10 50 (by decide) (by decide),
    by decide⟩

/-! ## Lemmas on removal -/

theorem find_lt_length (l : List bitcask_keydir_entry) (k : ErlNifBinary) (i : Nat)
    (h : KEYDIR_HASH_FIND l k = some i) : i < l.length := by
  obtain ⟨e, he, _⟩ := find_some_get l k i h
  rcases Nat.lt_or_ge i l.length with hlt | hge
  · exact hlt
  · rw [List.getElem?_eq_none hge] at he
    cases he

theorem find_eraseIdx_self (l : List bitcask_keydir_entry) (k : ErlNifBinary) (i : Nat)
    (hnd : (l.map hh_key).Nodup) (h : KEYDIR_HASH_FIND l k = some i) :
    KEYDIR_HASH_FIND (l.eraseIdx i) k = none := by
  induction l generalizing i with
  | nil => simp [KEYDIR_HASH_FIND] at h
  | cons a l ih =>
    rw [List.map_cons, List.nodup_cons] at hnd
    by_cases hm : hh_match a k = true
    · simp only [KEYDIR_HASH_FIND, hm, if_true, Option.some.injEq] at h
      subst h
      rw [List.eraseIdx_cons_zero, find_none_iff]
      intro e he
      by_contra hne
      have hme : hh_match e k = true := by simpa using hne
      have h1 := ((hh_match_iff a k).1 hm).2
      have h2 := ((hh_match_iff e k).1 hme).2
      exact hnd.1 (List.mem_map.2 ⟨e, he, h2.trans h1.symm⟩)
    · simp only [KEYDIR_HASH_FIND, hm, Bool.false_eq_true, if_false, Option.map_eq_some'] at h
      obtain ⟨j, hj, rfl⟩ := h
      simp [KEYDIR_HASH_FIND, hm, ih j hnd.2 hj]

theorem sum_map_eraseIdx (l : List bitcask_keydir_entry) (g : bitcask_keydir_entry → Nat)
    (i : Nat) (e : bitcask_keydir_entry) (he : l[i]? = some e) :
    (l.map g).sum = g e + ((l.eraseIdx i).map g).sum := by
  induction l generalizing i with
  | nil => simp at he
  | cons a l ih =>
    cases i with
    | zero =>
      simp at he
      subst he
      simp
    | succ j =>
      simp at he
      simp [ih j he]
      omega

theorem remove_of_find_none (h : bitcask_keydir_handle) (k : ErlNifBinary)
    (hf : KEYDIR_HASH_FIND h.keydir k = none) :
    bitcask_nifs_keydir_remove h k = (remove_result.ok, h) := by
  simp [bitcask_nifs_keydir_remove, hf]

theorem remove_of_find_some (h : bitcask_keydir_handle) (k : ErlNifBinary) (i : Nat)
    (e : bitcask_keydir_entry) (hf : KEYDIR_HASH_FIND h.keydir k = some i)
    (he : h.keydir[i]? = some e) :
    bitcask_nifs_keydir_remove h k =
      (remove_result.ok,
        { keydir := h.keydir.eraseIdx i,
          key_count := h.key_count - 1,
          key_bytes := h.key_bytes - e.key_sz }) := by
  simp [bitcask_nifs_keydir_remove, hf, he, HASH_DEL]

theorem remove_ok (h : bitcask_keydir_handle) (k : ErlNifBinary) :
    (bitcask_nifs_keydir_remove h k).1 = remove_result.ok := by
  cases (bitcask_nifs_keydir_remove h k).1
  rfl

/-- In a well-formed store the lookup of a key fails after the key was removed. -/
theorem find_remove_self (S : bitcask_keydir_handle) (k : ErlNifBinary) (hwf : keydir_wf S) :
    KEYDIR_HASH_FIND (bitcask_nifs_keydir_remove S k).2.keydir k = none := by
  cases hf : KEYDIR_HASH_FIND S.keydir k with
  | none => rw [remove_of_find_none S k hf]; exact hf
  | some i =>
    obtain ⟨e, he, _⟩ := find_some_get _ _ _ hf
    rw [remove_of_find_some S k i e hf he]
    exact find_eraseIdx_self S.keydir k i hwf.1 hf

/-! ## Removal of a present key from a well-formed store -/

/-- In a well-formed store (distinct keys, exact counters) in which key `k` is present,
`remove k` answers `ok`, a following `get k` answers `not_found`, `key_count` has decreased by
1 and `key_bytes` has decreased by the length of `k`. -/
theorem remove_present_wf (S : bitcask_keydir_handle) (k : ErlNifBinary) (f v p t : Nat)
    (hwf : keydir_wf S)
    (hpres : bitcask_nifs_keydir_get S k = get_result.bitcask_entry k f v p t) :
    (bitcask_nifs_keydir_remove S k).1 = remove_result.ok ∧
    bitcask_nifs_keydir_get (bitcask_nifs_keydir_remove S k).2 k = get_result.not_found ∧
    (bitcask_nifs_keydir_remove S k).2.key_count + 1 = S.key_count ∧
    (bitcask_nifs_keydir_remove S k).2.key_bytes + k.length = S.key_bytes := by
  refine ⟨remove_ok S k, get_of_find_none _ _ (find_remove_self S k hwf), ?_, ?_⟩
  · obtain ⟨i, e, hf, he, -⟩ := (get_entry_iff _ _ _ _ _ _).1 hpres
    rw [remove_of_find_some S k i e hf he]
    have hlt := find_lt_length _ _ _ hf
    have hc := hwf.2.2.1
    show S.key_count - 1 + 1 = S.key_count
    omega
  · obtain ⟨i, e, hf, he, -⟩ := (get_entry_iff _ _ _ _ _ _).1 hpres
    obtain ⟨e2, he2, hm⟩ := find_some_get _ _ _ hf
    rw [he] at he2
    cases he2
    rw [remove_of_find_some S k i e hf he]
    have hb := hwf.2.2.2
    have hs := sum_map_eraseIdx S.keydir (fun e => (hh_key e).length) i e he
    obtain ⟨h1, h2⟩ := (hh_match_iff e k).1 hm
    show S.key_bytes - e.key_sz + k.length = S.key_bytes
    simp only [h2] at hs
    omega

/-! ## C7: removal of an absent key -/

/-- C7: for every store `S` and every key `k` absent from `S`, `remove k` answers `ok` and
leaves `S` unchanged (every entry, `key_count` and `key_bytes`); hence a second `remove k`
answers `ok` and gives the store of the first one, when `k` was absent and also for every
well-formed store whatever the key. -/
theorem remove_absent_noop (S : bitcask_keydir_handle) (k : ErlNifBinary) :
    (bitcask_nifs_keydir_get S k = get_result.not_found →
      bitcask_nifs_keydir_remove S k = (remove_result.ok, S)) ∧
    (bitcask_nifs_keydir_get S k = get_result.not_found ∨ keydir_wf S →
      bitcask_nifs_keydir_remove (bitcask_nifs_keydir_remove S k).2 k =
        (remove_result.ok, (bitcask_nifs_keydir_remove S k).2)) := by
  constructor
  · intro habs
    exact remove_of_find_none S k ((get_not_found_iff S k).1 habs)
  · rintro (habs | hwf)
    · have hf := (get_not_found_iff S k).1 habs
      rw [remove_of_find_none S k hf]
      exact remove_of_find_none S k hf
    · exact remove_of_find_none _ k (find_remove_self S k hwf)

/-- Witness of `remove_absent_noop`: the key `"k2"` removed from the store that holds only
`"k1"`, and `"k1"` removed twice. -/
theorem remove_absent_noop_witness :
    bitcask_nifs_keydir_get (bitcask_nifs_keydir_put bitcask_nifs_keydir_new key_k1 1 10 0 100).2
      key_k2 = get_result.not_found ∧
    bitcask_nifs_keydir_remove
      (bitcask_nifs_keydir_put bitcask_nifs_keydir_new key_k1 1 10 0 100).2 key_k2 =
      (remove_result.ok, (bitcask_nifs_keydir_put bitcask_nifs_keydir_new key_k1 1 10 0 100).2) ∧
    keydir_wf (bitcask_nifs_keydir_put bitcask_nifs_keydir_new key_k1 1 10 0 100).2 ∧
    bitcask_nifs_keydir_remove
      (bitcask_nifs_keydir_remove
        (bitcask_nifs_keydir_put bitcask_nifs_keydir_new key_k1 1 10 0 100).2 key_k1).2 key_k1 =
      (remove_result.ok,
        (bitcask_nifs_keydir_remove
          (bitcask_nifs_keydir_put bitcask_nifs_keydir_new key_k1 1 10 0 100).2 key_k1).2) :=
  ⟨by decide,
    (remove_absent_noop (bitcask_nifs_keydir_put bitcask_nifs_keydir_new key_k1 1 10 0 100).2
      key_k2).1 (by decide),
    by decide,
    (remove_absent_noop (bitcask_nifs_keydir_put bitcask_nifs_keydir_new key_k1 1 10 0 100).2
      key_k1).2 (Or.inr (by decide))⟩

/-! ## The data model is kept by `put` and `remove` -/

theorem map_set_same (l : List bitcask_keydir_entry) {β : Type} (g : bitcask_keydir_entry → β)
    (i : Nat) (old e : bitcask_keydir_entry) (he : l[i]? = some old) (hg : g e = g old) :
    (l.set i e).map g = l.map g := by
  induction l generalizing i with
  | nil => simp
  | cons a l ih =>
    cases i with
    | zero =>
      simp at he
      subst he
      simp [hg]
    | succ j =>
      simp at he
      simp [ih j he]

theorem keydir_wf_new : keydir_wf bitcask_nifs_keydir_new := by
  decide

theorem not_mem_keys_of_find_none (S : bitcask_keydir_handle) (k : ErlNifBinary)
    (hwf : keydir_wf S) (hf : KEYDIR_HASH_FIND S.keydir k = none) :
    k ∉ S.keydir.map hh_key := by
  intro hmem
  obtain ⟨e, he, hk⟩ := List.mem_map.1 hmem
  have hno := (find_none_iff _ _).1 hf e he
  have hfit := hwf.2.1 e he
  have hm : hh_match e k = true := by
    rw [hh_match_iff]
    refine ⟨?_, hk⟩
    rw [← hk, hh_key, hfit, List.take_length]
  rw [hm] at hno
  cases hno

theorem put_wf (S : bitcask_keydir_handle) (k : ErlNifBinary) (f v p t : Nat)
    (hwf : keydir_wf S) (hlen : k.length < UINT16_RANGE) :
    keydir_wf (bitcask_nifs_keydir_put S k f v p t).2 := by
  cases hf : KEYDIR_HASH_FIND S.keydir k with
  | none =>
    rw [put_of_find_none _ _ _ _ _ _ hf]
    have hnk := not_mem_keys_of_find_none S k hwf hf
    obtain ⟨hnd, hfit, hc, hb⟩ := hwf
    have hmod : k.length % UINT16_RANGE = k.length := Nat.mod_eq_of_lt hlen
    refine ⟨?_, ?_, ?_, ?_⟩
    · simp only [List.map_append, List.map_cons, List.map_nil]
      rw [List.nodup_append]
      refine ⟨hnd, List.nodup_singleton _, ?_⟩
      intro a ha hb2
      rw [List.mem_singleton] at hb2
      subst hb2
      apply hnk
      simpa [hh_key, hmod] using ha
    · intro e he
      rcases List.mem_append.1 he with h | h
      · exact hfit e h
      · rw [List.mem_singleton] at h
        subst h
        exact hmod
    · simp [hc]
    · simp [hb, hh_key, hmod]
  | some i =>
    obtain ⟨old, he, _⟩ := find_some_get _ _ _ hf
    rw [put_of_find_some _ _ _ _ _ _ i old hf he]
    split
    · obtain ⟨hnd, hfit, hc, hb⟩ := hwf
      refine ⟨?_, ?_, ?_, ?_⟩
      · show ((S.keydir.set i _).map hh_key).Nodup
        rw [map_set_same S.keydir hh_key i old ⟨f, v, p, t, old.key_sz, old.key⟩ he rfl]
        exact hnd
      · intro e hmem
        rcases List.mem_or_eq_of_mem_set hmem with h | h
        · exact hfit e h
        · subst h
          exact hfit old (List.getElem?_mem he)
      · show S.key_count = (S.keydir.set i _).length
        simp [hc]
      · show S.key_bytes = ((S.keydir.set i _).map _).sum
        rw [map_set_same S.keydir (fun e => (hh_key e).length) i old
          ⟨f, v, p, t, old.key_sz, old.key⟩ he rfl]
        exact hb
    · exact hwf

theorem remove_wf (S : bitcask_keydir_handle) (k : ErlNifBinary) (hwf : keydir_wf S) :
    keydir_wf (bitcask_nifs_keydir_remove S k).2 := by
  cases hf : KEYDIR_HASH_FIND S.keydir k with
  | none => rw [remove_of_find_none S k hf]; exact hwf
  | some i =>
    obtain ⟨e, he, hm⟩ := find_some_get _ _ _ hf
    rw [remove_of_find_some S k i e hf he]
    have hlt := find_lt_length _ _ _ hf
    obtain ⟨hnd, hfit, hc, hb⟩ := hwf
    have hsub := List.eraseIdx_sublist S.keydir i
    refine ⟨hnd.sublist (hsub.map hh_key), fun e he => hfit e (hsub.subset he), ?_, ?_⟩
    · show S.key_count - 1 = (S.keydir.eraseIdx i).length
      rw [List.length_eraseIdx, if_pos hlt, hc]
    · show S.key_bytes - e.key_sz = ((S.keydir.eraseIdx i).map _).sum
      have hs := sum_map_eraseIdx S.keydir (fun e => (hh_key e).length) i e he
      have hfe := hfit e (List.getElem?_mem he)
      have hk : (hh_key e).length = e.key_sz := by
        rw [hh_key, hfe, List.take_length]
      simp only [hk] at hs
      omega

theorem run_ops_wf (S : bitcask_keydir_handle) (ops : List keydir_op) (hwf : keydir_wf S)
    (hshort : ∀ op ∈ ops, op.key.length < UINT16_RANGE) : keydir_wf (run_ops S ops) := by
  induction ops generalizing S with
  | nil => exact hwf
  | cons op ops ih =>
    have hop := hshort op (List.mem_cons_self _ _)
    have hrest : ∀ o ∈ ops, o.key.length < UINT16_RANGE :=
      fun o ho => hshort o (List.mem_cons_of_mem _ ho)
    show keydir_wf (run_ops (apply_op S op) ops)
    apply ih _ _ hrest
    cases op with
    | put key f v p t => exact put_wf S key f v p t hwf hop
    | remove key => exact remove_wf S key hwf

/-! ## C5: the counters -/

/-- After a key of `2^16 + 1` bytes was put into the new store and its first byte was removed as
a key, the store holds no entry and counts `2^16` key bytes. -/
theorem put_key_65537_remove_first (b : Byte) (rest : ErlNifBinary)
    (hrest : rest.length = 65536) :
    (run_ops bitcask_nifs_keydir_new
      [keydir_op.put (b :: rest) 1 1 0 5, keydir_op.remove [b]]).keydir = [] ∧
    (run_ops bitcask_nifs_keydir_new
      [keydir_op.put (b :: rest) 1 1 0 5, keydir_op.remove [b]]).key_count = 0 ∧
    (run_ops bitcask_nifs_keydir_new
      [keydir_op.put (b :: rest) 1 1 0 5, keydir_op.remove [b]]).key_bytes = 65536 := by
  have hf : KEYDIR_HASH_FIND bitcask_nifs_keydir_new.keydir (b :: rest) = none := rfl
  have hrun : run_ops bitcask_nifs_keydir_new
      [keydir_op.put (b :: rest) 1 1 0 5, keydir_op.remove [b]] =
      (bitcask_nifs_keydir_remove
        (bitcask_nifs_keydir_put bitcask_nifs_keydir_new (b :: rest) 1 1 0 5).2 [b]).2 := rfl
  rw [hrun, put_of_find_none _ _ _ _ _ _ hf]
  simp [bitcask_nifs_keydir_remove, bitcask_nifs_keydir_new, KEYDIR_HASH_FIND, hh_match, hh_key,
    HASH_DEL, hrest, UINT16_RANGE]

/-- C5 as stated fails: put of the key of `2^16 + 1` bytes into the new store and then remove of
the key `"a"`, its first byte, leave a store without entries whose `key_bytes` is `65536`. -/
theorem counters_long_key_counterexample :
    (run_ops bitcask_nifs_keydir_new
      [keydir_op.put long_key 1 1 0 5, keydir_op.remove [97]]).keydir = [] ∧
    (run_ops bitcask_nifs_keydir_new
      [keydir_op.put long_key 1 1 0 5, keydir_op.remove [97]]).key_count = 0 ∧
    (run_ops bitcask_nifs_keydir_new
      [keydir_op.put long_key 1 1 0 5, keydir_op.remove [97]]).key_bytes = 65536 :=
  put_key_65537_remove_first 97 (List.replicate 65536 0) (List.length_replicate 65536 0)

/-- C5 (amended): in every store reachable from a new empty store by any finite sequence of put
and remove calls whose keys are shorter than `2^16` bytes (any parameters), `key_count` equals
the number of entries held by the store and `key_bytes` equals the sum of the lengths of their
keys. -/
theorem counters_exact (ops : List keydir_op)
    (hshort : ∀ op ∈ ops, op.key.length < UINT16_RANGE) :
    (run_ops bitcask_nifs_keydir_new ops).key_count =
      (run_ops bitcask_nifs_keydir_new ops).keydir.length ∧
    (run_ops bitcask_nifs_keydir_new ops).key_bytes =
      ((run_ops bitcask_nifs_keydir_new ops).keydir.map (fun e => (hh_key e).length)).sum ∧
    ∀ e ∈ (run_ops bitcask_nifs_keydir_new ops).keydir, hh_key e = e.key := by
  have hwf := run_ops_wf bitcask_nifs_keydir_new ops keydir_wf_new hshort
  refine ⟨hwf.2.2.1, hwf.2.2.2, ?_⟩
  intro e he
  rw [hh_key, hwf.2.1 e he, List.take_length]

/-- Witness of `counters_exact`: two keys put, one overwritten, one removed. -/
theorem counters_exact_witness :
    (∀ op ∈ [keydir_op.put key_k1 1 10 0 100, keydir_op.put key_k2 1 1 0 5,
        keydir_op.put key_k2 2 2 0 5, keydir_op.remove key_k1],
      op.key.length < UINT16_RANGE) ∧
    (run_ops bitcask_nifs_keydir_new
      [keydir_op.put key_k1 1 10 0 100, keydir_op.put key_k2 1 1 0 5,
        keydir_op.put key_k2 2 2 0 5, keydir_op.remove key_k1]).key_count = 1 ∧
    (run_ops bitcask_nifs_keydir_new
      [keydir_op.put key_k1 1 10 0 100, keydir_op.put key_k2 1 1 0 5,
        keydir_op.put key_k2 2 2 0 5, keydir_op.remove key_k1]).key_bytes = 2 :=
  ⟨by decide,
    (counters_exact
      [keydir_op.put key_k1 1 10 0 100, keydir_op.put key_k2 1 1 0 5,
        keydir_op.put key_k2 2 2 0 5, keydir_op.remove key_k1] (by decide)).1.trans (by decide),
    (counters_exact
      [keydir_op.put key_k1 1 10 0 100, keydir_op.put key_k2 1 1 0 5,
        keydir_op.put key_k2 2 2 0 5, keydir_op.remove key_k1] (by decide)).2.1.trans
      (by decide)⟩

/-! ## C1: a sequence of puts to one key -/

theorem spec_accepted_calls_cons_true (acc : List Nat) (a : put_args) (rest : List put_args)
    (h : ∀ t ∈ acc, t ≤ a.tstamp) :
    spec_accepted (acc) (a :: rest) = true :: spec_accepted (a.tstamp :: acc) rest ∧
    spec_accepted_calls acc (a :: rest) = a :: spec_accepted_calls (a.tstamp :: acc) rest := by
  have h1 : spec_accepted (acc) (a :: rest) = true :: spec_accepted (a.tstamp :: acc) rest := by
    simp only [spec_accepted]
    rw [if_pos h]
  refine ⟨h1, ?_⟩
  simp [spec_accepted_calls, h1]

theorem spec_accepted_calls_cons_false (acc : List Nat) (a : put_args) (rest : List put_args)
    (h : ¬ ∀ t ∈ acc, t ≤ a.tstamp) :
    spec_accepted (acc) (a :: rest) = false :: spec_accepted acc rest ∧
    spec_accepted_calls acc (a :: rest) = spec_accepted_calls acc rest := by
  have h1 : spec_accepted (acc) (a :: rest) = false :: spec_accepted acc rest := by
    simp only [spec_accepted]
    rw [if_neg h]
  refine ⟨h1, ?_⟩
  simp [spec_accepted_calls, h1]

/-- A store in which the key is present: the results of a sequence of puts follow the
specification, and the final entry is the last accepted call, or the present entry when no call
is accepted. -/
theorem put_trace_present (k : ErlNifBinary) (calls : List put_args) :
    ∀ (S : bitcask_keydir_handle) (acc : List Nat) (i : Nat) (e : bitcask_keydir_entry),
      KEYDIR_HASH_FIND S.keydir k = some i → S.keydir[i]? = some e →
      (∀ t ∈ acc, t ≤ e.tstamp) → e.tstamp ∈ acc →
      (put_trace S k calls).map Prod.fst = (spec_accepted acc calls).map spec_result ∧
      bitcask_nifs_keydir_get (put_all S k calls) k =
        match (spec_accepted_calls acc calls).getLast? with
        | some a => get_result.bitcask_entry k a.file_id a.value_sz a.value_pos a.tstamp
        | none => get_result.bitcask_entry k e.file_id e.value_sz e.value_pos e.tstamp := by
  induction calls with
  | nil =>
    intro S acc i e hf he _ _
    refine ⟨rfl, ?_⟩
    simp only [spec_accepted_calls, spec_accepted, List.zip_nil_right, List.filter_nil,
      List.map_nil, List.getLast?_nil, put_all]
    exact get_of_find_some S k i e hf he
  | cons a rest ih =>
    intro S acc i e hf he hmax hin
    by_cases hle : e.tstamp ≤ a.tstamp
    · have hall : ∀ t ∈ acc, t ≤ a.tstamp := fun t ht => Nat.le_trans (hmax t ht) hle
      obtain ⟨h1, h2⟩ := spec_accepted_calls_cons_true acc a rest hall
      have hput := put_of_find_some S k a.file_id a.value_sz a.value_pos a.tstamp i e hf he
      rw [if_pos hle] at hput
      have hlt := find_lt_length _ _ _ hf
      have hf2 : KEYDIR_HASH_FIND (S.keydir.set i
          ⟨a.file_id, a.value_sz, a.value_pos, a.tstamp, e.key_sz, e.key⟩) k = some i :=
        (find_set S.keydir i e
          ⟨a.file_id, a.value_sz, a.value_pos, a.tstamp, e.key_sz, e.key⟩ k he rfl rfl).trans hf
      have he2 : (S.keydir.set i
          ⟨a.file_id, a.value_sz, a.value_pos, a.tstamp, e.key_sz, e.key⟩)[i]? =
          some ⟨a.file_id, a.value_sz, a.value_pos, a.tstamp, e.key_sz, e.key⟩ := by
        simp [List.getElem?_set, hlt]
      obtain ⟨ih1, ih2⟩ := ih
        { keydir := S.keydir.set i
            ⟨a.file_id, a.value_sz, a.value_pos, a.tstamp, e.key_sz, e.key⟩,
          key_count := S.key_count, key_bytes := S.key_bytes }
        (a.tstamp :: acc) i ⟨a.file_id, a.value_sz, a.value_pos, a.tstamp, e.key_sz, e.key⟩
        hf2 he2
        (fun t ht => by
          rcases List.mem_cons.1 ht with h | h
          · exact Nat.le_of_eq h
          · exact hall t h)
        (List.mem_cons_self _ _)
      constructor
      · simp only [put_trace, List.map_cons, hput, h1, ih1, spec_result, if_true]
      · simp only [put_all, hput, h2, List.getLast?_cons, ih2]
        cases (spec_accepted_calls (a.tstamp :: acc) rest).getLast? <;> rfl
    · have hnall : ¬ ∀ t ∈ acc, t ≤ a.tstamp := fun h => hle (h _ hin)
      obtain ⟨h1, h2⟩ := spec_accepted_calls_cons_false acc a rest hnall
      have hput := put_of_find_some S k a.file_id a.value_sz a.value_pos a.tstamp i e hf he
      rw [if_neg hle] at hput
      obtain ⟨ih1, ih2⟩ := ih S acc i e hf he hmax hin
      constructor
      · simp only [put_trace, List.map_cons, hput, h1, ih1, spec_result]
        rfl
      · simp only [put_all, hput, h2, ih2]

theorem put_rejected_unchanged (S : bitcask_keydir_handle) (k : ErlNifBinary) (f v p t : Nat)
    (h : (bitcask_nifs_keydir_put S k f v p t).1 = put_result.already_exists) :
    (bitcask_nifs_keydir_put S k f v p t).2 = S := by
  cases hf : KEYDIR_HASH_FIND S.keydir k with
  | none =>
    rw [put_of_find_none _ _ _ _ _ _ hf] at h
    cases h
  | some i =>
    obtain ⟨e, he, _⟩ := find_some_get _ _ _ hf
    rw [put_of_find_some _ _ _ _ _ _ i e hf he] at h ⊢
    split
    · rename_i hle
      rw [if_pos hle] at h
      cases h
    · rfl

theorem put_trace_rejected_unchanged (k : ErlNifBinary) (calls : List put_args) :
    ∀ (S : bitcask_keydir_handle),
      ∀ x ∈ (put_states S k calls).zip (put_trace S k calls),
        x.2.1 = put_result.already_exists → x.2.2 = x.1 := by
  induction calls with
  | nil =>
    intro S x hx
    simp [put_states, put_trace] at hx
  | cons a rest ih =>
    intro S x hx hrej
    simp only [put_states, put_trace, List.map_cons, List.zip_cons_cons, List.mem_cons] at hx
    rcases hx with rfl | hx
    · exact put_rejected_unchanged S k _ _ _ _ hrej
    · exact ih _ x hx hrej

/-- Two puts of a key of `2^16 + 1` bytes with decreasing tstamps into the new store: both are
answered `ok` and the key is not found afterwards. -/
theorem put_twice_key_65537 (k : ErlNifBinary) (hk : k.length = 65537) :
    bitcask_nifs_keydir_get bitcask_nifs_keydir_new k = get_result.not_found ∧
    (put_trace bitcask_nifs_keydir_new k [⟨1, 1, 0, 5⟩, ⟨2, 2, 0, 3⟩]).map Prod.fst =
      [put_result.ok, put_result.ok] ∧
    (spec_accepted [] [⟨1, 1, 0, 5⟩, ⟨2, 2, 0, 3⟩]).map spec_result =
      [put_result.ok, put_result.already_exists] ∧
    spec_final [⟨1, 1, 0, 5⟩, ⟨2, 2, 0, 3⟩] = some ⟨1, 1, 0, 5⟩ ∧
    bitcask_nifs_keydir_get (put_all bitcask_nifs_keydir_new k [⟨1, 1, 0, 5⟩, ⟨2, 2, 0, 3⟩]) k =
      get_result.not_found := by
  have hf : KEYDIR_HASH_FIND bitcask_nifs_keydir_new.keydir k = none := rfl
  have hf2 : KEYDIR_HASH_FIND
      (bitcask_nifs_keydir_put bitcask_nifs_keydir_new k 1 1 0 5).2.keydir k = none := by
    rw [put_of_find_none _ _ _ _ _ _ hf]
    simp [bitcask_nifs_keydir_new, KEYDIR_HASH_FIND, hh_match, hk, UINT16_RANGE]
  have hf3 : KEYDIR_HASH_FIND
      (bitcask_nifs_keydir_put
        (bitcask_nifs_keydir_put bitcask_nifs_keydir_new k 1 1 0 5).2 k 2 2 0 3).2.keydir k =
      none := by
    rw [put_of_find_none _ _ _ _ _ _ hf2, put_of_find_none _ _ _ _ _ _ hf]
    simp [bitcask_nifs_keydir_new, KEYDIR_HASH_FIND, hh_match, hk, UINT16_RANGE]
  refine ⟨get_of_find_none _ _ hf, ?_, by decide, by decide, get_of_find_none _ _ hf3⟩
  simp only [put_trace, List.map_cons, List.map_nil]
  rw [put_of_find_none _ _ _ _ _ _ hf2, put_of_find_none _ _ _ _ _ _ hf]

/-- C1 as stated fails: the key of `2^16 + 1` bytes is absent from the new store; of the puts
with tstamps 5 and 3 the second one should be rejected and the final entry should be the first
call, but both are answered `ok` and the final `get` answers `not_found`. -/
theorem put_sequence_long_key_counterexample :
    bitcask_nifs_keydir_get bitcask_nifs_keydir_new long_key = get_result.not_found ∧
    (put_trace bitcask_nifs_keydir_new long_key [⟨1, 1, 0, 5⟩, ⟨2, 2, 0, 3⟩]).map Prod.fst =
      [put_result.ok, put_result.ok] ∧
    (spec_accepted [] [⟨1, 1, 0, 5⟩, ⟨2, 2, 0, 3⟩]).map spec_result =
      [put_result.ok, put_result.already_exists] ∧
    spec_final [⟨1, 1, 0, 5⟩, ⟨2, 2, 0, 3⟩] = some ⟨1, 1, 0, 5⟩ ∧
    bitcask_nifs_keydir_get
      (put_all bitcask_nifs_keydir_new long_key [⟨1, 1, 0, 5⟩, ⟨2, 2, 0, 3⟩]) long_key =
      get_result.not_found :=
  put_twice_key_65537 long_key long_key_length

/-- C1 (amended): for every key `k` shorter than `2^16` bytes and every non-empty sequence of
puts to `k` applied to a store in which `k` is absent, the calls answered `ok` are exactly the
calls whose tstamp is `>=` the tstamp of every previously accepted call and every other call is
answered `already_exists`; the entry stored for `k` at the end has the parameters of the last
accepted call; and every call answered `already_exists` leaves the store unchanged. -/
theorem put_sequence_prefix_monotonic (S : bitcask_keydir_handle) (k : ErlNifBinary)
    (calls : List put_args)
    (habs : bitcask_nifs_keydir_get S k = get_result.not_found)
    (hlen : k.length < UINT16_RANGE) (hne : calls ≠ []) :
    (put_trace S k calls).map Prod.fst = (spec_accepted [] calls).map spec_result ∧
    (∃ a, spec_final calls = some a ∧
      bitcask_nifs_keydir_get (put_all S k calls) k =
        get_result.bitcask_entry k a.file_id a.value_sz a.value_pos a.tstamp) ∧
    (∀ x ∈ (put_states S k calls).zip (put_trace S k calls),
      x.2.1 = put_result.already_exists → x.2.2 = x.1) := by
  refine ⟨?_, ?_, put_trace_rejected_unchanged k calls S⟩
  · cases calls with
    | nil => exact absurd rfl hne
    | cons a rest =>
      have hf := (get_not_found_iff S k).1 habs
      obtain ⟨h1, -⟩ := spec_accepted_calls_cons_true [] a rest (fun t ht => by cases ht)
      have hput := put_of_find_none S k a.file_id a.value_sz a.value_pos a.tstamp hf
      have hm : hh_match
          ⟨a.file_id, a.value_sz, a.value_pos, a.tstamp, k.length % UINT16_RANGE, k⟩ k = true := by
        simp [hh_match, hh_key, Nat.mod_eq_of_lt hlen]
      obtain ⟨ih1, -⟩ := put_trace_present k rest
        (bitcask_nifs_keydir_put S k a.file_id a.value_sz a.value_pos a.tstamp).2 [a.tstamp]
        S.keydir.length
        ⟨a.file_id, a.value_sz, a.value_pos, a.tstamp, k.length % UINT16_RANGE, k⟩
        (by rw [hput]; simp only [find_append_of_none _ _ _ hf, hm, if_true])
        (by rw [hput]; simp)
        (fun t ht => by rw [List.mem_singleton] at ht; exact Nat.le_of_eq ht)
        (List.mem_singleton.2 rfl)
      rw [hput] at ih1
      simp only [put_trace, List.map_cons, h1, ih1, spec_result, if_true, hput]
  · cases calls with
    | nil => exact absurd rfl hne
    | cons a rest =>
      have hf := (get_not_found_iff S k).1 habs
      obtain ⟨-, h2⟩ := spec_accepted_calls_cons_true [] a rest (fun t ht => by cases ht)
      have hput := put_of_find_none S k a.file_id a.value_sz a.value_pos a.tstamp hf
      have hm : hh_match
          ⟨a.file_id, a.value_sz, a.value_pos, a.tstamp, k.length % UINT16_RANGE, k⟩ k = true := by
        simp [hh_match, hh_key, Nat.mod_eq_of_lt hlen]
      obtain ⟨-, ih2⟩ := put_trace_present k rest
        (bitcask_nifs_keydir_put S k a.file_id a.value_sz a.value_pos a.tstamp).2 [a.tstamp]
        S.keydir.length
        ⟨a.file_id, a.value_sz, a.value_pos, a.tstamp, k.length % UINT16_RANGE, k⟩
        (by rw [hput]; simp only [find_append_of_none _ _ _ hf, hm, if_true])
        (by rw [hput]; simp)
        (fun t ht => by rw [List.mem_singleton] at ht; exact Nat.le_of_eq ht)
        (List.mem_singleton.2 rfl)
      rw [hput] at ih2
      simp only [spec_final, h2, List.getLast?_cons, put_all, hput]
      cases hl : (spec_accepted_calls [a.tstamp] rest).getLast? with
      | none =>
        rw [hl] at ih2
        exact ⟨a, rfl, ih2⟩
      | some b =>
        rw [hl] at ih2
        exact ⟨b, rfl, ih2⟩

/-- Witness of `put_sequence_prefix_monotonic`: four puts to `"k1"` with tstamps 100, 50, 100
and 99 on the new store; the second and the fourth are rejected and the third one is stored. -/
theorem put_sequence_prefix_monotonic_witness :
    bitcask_nifs_keydir_get bitcask_nifs_keydir_new key_k1 = get_result.not_found ∧
    key_k1.length < UINT16_RANGE ∧
    (put_trace bitcask_nifs_keydir_new key_k1
      [⟨1, 10, 0, 100⟩, ⟨1, 20, 10, 50⟩, ⟨2, 2, 0, 100⟩, ⟨3, 3, 3, 99⟩]).map Prod.fst =
      [put_result.ok, put_result.already_exists, put_result.ok, put_result.already_exists] ∧
    spec_final [⟨1, 10, 0, 100⟩, ⟨1, 20, 10, 50⟩, ⟨2, 2, 0, 100⟩, ⟨3, 3, 3, 99⟩] =
      some ⟨2, 2, 0, 100⟩ ∧
    bitcask_nifs_keydir_get
      (put_all bitcask_nifs_keydir_new key_k1
        [⟨1, 10, 0, 100⟩, ⟨1, 20, 10, 50⟩, ⟨2, 2, 0, 100⟩, ⟨3, 3, 3, 99⟩]) key_k1 =
      get_result.bitcask_entry key_k1 2 2 0 100 :=
  ⟨by decide, by decide,
    (put_sequence_prefix_monotonic bitcask_nifs_keydir_new key_k1
      [⟨1, 10, 0, 100⟩, ⟨1, 20, 10, 50⟩, ⟨2, 2, 0, 100⟩, ⟨3, 3, 3, 99⟩]
      (by decide) (by decide) (by decide)).1.trans (by decide),
    by decide, by decide⟩

/-! ## C8 and C9: the copy -/

/-- The `memcpy` of the copy loop does not write the header of the block it was allocated for,
whatever the sizes of the structs. -/
theorem copy_memcpy_misses_header (sizeof_hh sizeof_entry : Nat) (mem : Nat → Byte)
    (new curr key_sz a : Nat) (hhh : 1 ≤ sizeof_hh) (ha : a < new + sizeof_entry) :
    copy_memcpy sizeof_hh sizeof_entry mem new curr key_sz a = mem a := by
  have hmul : sizeof_entry ≤ sizeof_hh * sizeof_entry := Nat.le_mul_of_pos_left _ hhh
  have hnot : ¬ (new + sizeof_hh * sizeof_entry ≤ a ∧
      a < new + sizeof_hh * sizeof_entry + (sizeof_entry + key_sz)) := by
    intro h
    omega
  simp only [copy_memcpy, memcpy, entry_ptr_add]
  rw [if_neg hnot]

theorem copy_keydir (enif_alloc : Nat → bitcask_keydir_entry) (S : bitcask_keydir_handle) :
    (bitcask_nifs_keydir_copy enif_alloc S).keydir =
      (List.range S.keydir.length).map enif_alloc := by
  have h : ∀ (l : List Nat) (acc : List bitcask_keydir_entry),
      l.foldl (fun new_keydir n => KEYDIR_HASH_ADD new_keydir (enif_alloc n)) acc =
        acc ++ l.map enif_alloc := by
    intro l
    induction l with
    | nil => intro acc; simp
    | cons a l ih =>
      intro acc
      rw [List.foldl_cons, ih]
      simp [KEYDIR_HASH_ADD]
  simp [bitcask_nifs_keydir_copy, h]

/-- C8, the code at the failing input: the table of a copy is made of the blocks as they were
allocated, whatever the entries of the source are; for the store that holds `"k1"` with
`(1,10,0,100)` and zero-filled blocks, the counters are copied and `get "k1"` on the copy
answers `not_found`, while the source answers the entry. -/
theorem copy_loses_entries :
    (∀ (enif_alloc : Nat → bitcask_keydir_entry) (S : bitcask_keydir_handle),
      (bitcask_nifs_keydir_copy enif_alloc S).keydir =
        (List.range S.keydir.length).map enif_alloc) ∧
    bitcask_nifs_keydir_get store_k1 key_k1 = get_result.bitcask_entry key_k1 1 10 0 100 ∧
    bitcask_nifs_keydir_info (bitcask_nifs_keydir_copy (fun _ => zero_block) store_k1) =
      bitcask_nifs_keydir_info store_k1 ∧
    bitcask_nifs_keydir_get (bitcask_nifs_keydir_copy (fun _ => zero_block) store_k1) key_k1 =
      get_result.not_found :=
  ⟨copy_keydir, by decide, by decide, by decide⟩

/-- C9, the code at the failing input: with `sizeof(UT_hash_handle) = 56` and
`sizeof(bitcask_keydir_entry) = 80`, the `memcpy` of the copy loop writes no byte of the block
it was allocated for when the key is shorter than 4400 bytes, and when the block for the copy of
`"k1"` is allocated at address 1000 it overwrites the entry of the source store at 5480: the
byte at offset 56 of that entry changes from `1` to `0`. -/
theorem copy_writes_outside_new_block :
    (∀ (mem : Nat → Byte) (new curr key_sz a : Nat), key_sz < 4400 →
      new ≤ a → a < new + (80 + key_sz) → copy_memcpy 56 80 mem new curr key_sz a = mem a) ∧
    heap_k1 (5480 + 56) = 1 ∧
    copy_memcpy 56 80 heap_k1 1000 5480 2 (5480 + 56) = 0 := by
  refine ⟨?_, by decide, by decide⟩
  intro mem new curr key_sz a hk h1 h2
  have hnot : ¬ (new + 56 * 80 ≤ a ∧ a < new + 56 * 80 + (80 + key_sz)) := by
    intro h
    omega
  simp only [copy_memcpy, memcpy, entry_ptr_add]
  rw [if_neg hnot]

/-! ## Traversal of a well-formed store -/

theorem itr_loop_all (mem : List bitcask_keydir_entry) (alloc : Nat → Bool)
    (hall : ∀ n, alloc n = true) :
    ∀ (fuel p n : Nat), p < mem.length → mem.length - p < fuel →
      itr_loop mem alloc fuel n (some p) =
        ((mem.drop p).map entry_term, traversal_end.not_found) := by
  intro fuel
  induction fuel with
  | zero => intro p n _ h; omega
  | succ fuel ih =>
    intro p n hp hfuel
    have hget : mem[p]? = some mem[p] := List.getElem?_eq_getElem hp
    have hdrop : mem.drop p = mem[p] :: mem.drop (p + 1) := List.drop_eq_getElem_cons hp
    by_cases hnext : p + 1 < mem.length
    · have hrec := ih (p + 1) (n + 1) hnext (by omega)
      simp only [itr_loop, bitcask_nifs_keydir_itr_next, hget, hall, Bool.not_true,
        Bool.false_eq_true, if_false, if_pos hnext, hrec, hdrop, List.map_cons, entry_term]
    · have hnil : mem.drop (p + 1) = [] := List.drop_eq_nil_of_le (by omega)
      cases fuel with
      | zero => omega
      | succ fuel =>
        simp only [itr_loop, bitcask_nifs_keydir_itr_next, hget, hall, Bool.not_true,
          Bool.false_eq_true, if_false, if_neg hnext, hdrop, hnil, List.map_cons, List.map_nil,
          entry_term]

theorem entry_term_key (e : bitcask_keydir_entry) : (entry_term e).key = hh_key e := rfl

/-- In a well-formed store `get` answers an entry for a key exactly when the tuple is the tuple
of an entry of the chain. -/
theorem get_iff_mem (S : bitcask_keydir_handle) (hwf : keydir_wf S) (k : ErlNifBinary)
    (f v p t : Nat) :
    bitcask_nifs_keydir_get S k = get_result.bitcask_entry k f v p t ↔
      get_result.bitcask_entry k f v p t ∈ S.keydir.map entry_term := by
  constructor
  · intro hg
    obtain ⟨i, e, hf, he, rfl, rfl, rfl, rfl⟩ := (get_entry_iff _ _ _ _ _ _).1 hg
    obtain ⟨e2, he2, hm⟩ := find_some_get _ _ _ hf
    rw [he] at he2
    cases he2
    refine List.mem_map.2 ⟨e, List.getElem?_mem he, ?_⟩
    rw [entry_term, ((hh_match_iff e k).1 hm).2]
  · intro hmem
    obtain ⟨e, he, heq⟩ := List.mem_map.1 hmem
    have hkey : hh_key e = k := by
      have := congrArg get_result.key heq
      simpa [entry_term_key, get_result.key] using this
    have hfit := hwf.2.1 e he
    have hm : hh_match e k = true := by
      rw [hh_match_iff]
      refine ⟨?_, hkey⟩
      rw [← hkey, hh_key, hfit, List.take_length]
    cases hf : KEYDIR_HASH_FIND S.keydir k with
    | none =>
      have := (find_none_iff _ _).1 hf e he
      rw [hm] at this
      cases this
    | some i =>
      obtain ⟨e2, he2, hm2⟩ := find_some_get _ _ _ hf
      have hsame : e2 = e :=
        List.inj_on_of_nodup_map hwf.1 (List.getElem?_mem he2) he
          (((hh_match_iff e2 k).1 hm2).2.trans hkey.symm)
      subst hsame
      rw [get_of_find_some S k i e2 hf he2]
      simpa [entry_term, hkey] using heq

/-- For a non-empty well-formed store (distinct keys, exact counters) that is not mutated during
the traversal, when the allocation of the key binary succeeds in every `advance`, `begin`
followed by repeated `advance` on the returned cursors ends with `not_found` after more than
`key_count` calls at the latest, has yielded exactly `key_count` tuples, no tuple twice, and the
tuples yielded are exactly the tuples that `get` answers for the keys of the store. -/
theorem traverse_yields_all_wf (S : bitcask_keydir_handle) (alloc : Nat → Bool) (fuel : Nat)
    (hwf : keydir_wf S) (hne : S.keydir ≠ []) (hall : ∀ n, alloc n = true)
    (hfuel : S.key_count < fuel) :
    keydir_traverse S alloc fuel = (S.keydir.map entry_term, traversal_end.not_found) ∧
    (keydir_traverse S alloc fuel).1.length = S.key_count ∧
    (keydir_traverse S alloc fuel).1.Nodup ∧
    (∀ k f v p t, get_result.bitcask_entry k f v p t ∈ (keydir_traverse S alloc fuel).1 ↔
      bitcask_nifs_keydir_get S k = get_result.bitcask_entry k f v p t) ∧
    get_result.not_found ∉ (keydir_traverse S alloc fuel).1 := by
  have hpos : 0 < S.keydir.length := List.length_pos.2 hne
  have hc := hwf.2.2.1
  have htr : keydir_traverse S alloc fuel =
      (S.keydir.map entry_term, traversal_end.not_found) := by
    simp only [keydir_traverse, bitcask_nifs_keydir_itr, hne, ne_eq, not_false_eq_true, if_true]
    rw [itr_loop_all S.keydir alloc hall fuel 0 0 hpos (by omega), List.drop_zero]
  rw [htr]
  refine ⟨rfl, ?_, ?_, ?_, ?_⟩
  · simp [hc]
  · apply List.Nodup.of_map get_result.key
    rw [List.map_map]
    exact hwf.1
  · intro k f v p t
    exact (get_iff_mem S hwf k f v p t).symm
  · intro hmem
    obtain ⟨e, _, he⟩ := List.mem_map.1 hmem
    cases he

/-! ## Shared lemmas on an inserting put -/

/-- After the put of an absent key shorter than `2^16` bytes the lookup finds the new entry at
the end of the chain. -/
theorem find_put_of_find_none (S : bitcask_keydir_handle) (k : ErlNifBinary) (f v p t : Nat)
    (hf : KEYDIR_HASH_FIND S.keydir k = none) (hlen : k.length < UINT16_RANGE) :
    KEYDIR_HASH_FIND (bitcask_nifs_keydir_put S k f v p t).2.keydir k = some S.keydir.length ∧
    (bitcask_nifs_keydir_put S k f v p t).2.keydir[S.keydir.length]? =
      some ⟨f, v, p, t, k.length, k⟩ := by
  have hmod : k.length % UINT16_RANGE = k.length := Nat.mod_eq_of_lt hlen
  have hm : hh_match ⟨f, v, p, t, k.length, k⟩ k = true := by
    simp [hh_match, hh_key]
  rw [put_of_find_none _ _ _ _ _ _ hf, hmod]
  constructor
  · show KEYDIR_HASH_FIND (S.keydir ++ [⟨f, v, p, t, k.length, k⟩]) k = some S.keydir.length
    simp only [find_append_of_none _ _ _ hf, hm, if_true]
  · show (S.keydir ++ [⟨f, v, p, t, k.length, k⟩])[S.keydir.length]? = _
    simp

/-! ## C11: keys are unique -/

/-- Two puts of a key of `2^16 + 1` bytes into the new store leave two entries that are linked
under the same key, the first byte. -/
theorem put_twice_key_65537_chain (b : Byte) (rest : ErlNifBinary)
    (hrest : rest.length = 65536) :
    (run_ops bitcask_nifs_keydir_new
      [keydir_op.put (b :: rest) 1 1 0 5, keydir_op.put (b :: rest) 2 2 0 3]).keydir.map hh_key =
      [[b], [b]] ∧
    (run_ops bitcask_nifs_keydir_new
      [keydir_op.put (b :: rest) 1 1 0 5, keydir_op.put (b :: rest) 2 2 0 3]).keydir.map
        (fun e => e.key) = [b :: rest, b :: rest] := by
  have hf : KEYDIR_HASH_FIND bitcask_nifs_keydir_new.keydir (b :: rest) = none := rfl
  have hf2 : KEYDIR_HASH_FIND
      (bitcask_nifs_keydir_put bitcask_nifs_keydir_new (b :: rest) 1 1 0 5).2.keydir (b :: rest) =
      none := by
    rw [put_of_find_none _ _ _ _ _ _ hf]
    simp [bitcask_nifs_keydir_new, KEYDIR_HASH_FIND, hh_match, hrest, UINT16_RANGE]
  have hrun : run_ops bitcask_nifs_keydir_new
      [keydir_op.put (b :: rest) 1 1 0 5, keydir_op.put (b :: rest) 2 2 0 3] =
      (bitcask_nifs_keydir_put
        (bitcask_nifs_keydir_put bitcask_nifs_keydir_new (b :: rest) 1 1 0 5).2
        (b :: rest) 2 2 0 3).2 := rfl
  rw [hrun, put_of_find_none _ _ _ _ _ _ hf2, put_of_find_none _ _ _ _ _ _ hf]
  simp [bitcask_nifs_keydir_new, hh_key, hrest, UINT16_RANGE]

/-- C11 as stated fails: after two puts of the key of `2^16 + 1` bytes into the new store the
store holds two entries with the same key: both are linked under `"a"` and both hold the same
key bytes. -/
theorem unique_keys_long_key_counterexample :
    (run_ops bitcask_nifs_keydir_new
      [keydir_op.put long_key 1 1 0 5, keydir_op.put long_key 2 2 0 3]).keydir.map hh_key =
      [[97], [97]] ∧
    (run_ops bitcask_nifs_keydir_new
      [keydir_op.put long_key 1 1 0 5, keydir_op.put long_key 2 2 0 3]).keydir.map
        (fun e => e.key) = [long_key, long_key] :=
  put_twice_key_65537_chain 97 (List.replicate 65536 0) (List.length_replicate 65536 0)

/-- C11 (amended): in every store reachable from a new empty store by any finite sequence of put
and remove calls whose keys are shorter than `2^16` bytes, no two entries held by the store
have the same key, be it the key the entry is linked under or the key bytes it holds. -/
theorem unique_keys (ops : List keydir_op)
    (hshort : ∀ op ∈ ops, op.key.length < UINT16_RANGE) :
    ((run_ops bitcask_nifs_keydir_new ops).keydir.map hh_key).Nodup ∧
    ((run_ops bitcask_nifs_keydir_new ops).keydir.map (fun e => e.key)).Nodup := by
  have hwf := run_ops_wf bitcask_nifs_keydir_new ops keydir_wf_new hshort
  refine ⟨hwf.1, ?_⟩
  have heq : (run_ops bitcask_nifs_keydir_new ops).keydir.map (fun e => e.key) =
      (run_ops bitcask_nifs_keydir_new ops).keydir.map hh_key := by
    apply List.map_congr_left
    intro e he
    rw [hh_key, hwf.2.1 e he, List.take_length]
  rw [heq]
  exact hwf.1

/-- Witness of `unique_keys`: two keys put, one of them twice, one removed and put again. -/
theorem unique_keys_witness :
    (∀ op ∈ [keydir_op.put key_k1 1 10 0 100, keydir_op.put key_k2 1 1 0 5,
        keydir_op.put key_k2 2 2 0 5, keydir_op.remove key_k1, keydir_op.put key_k1 3 3 3 3],
      op.key.length < UINT16_RANGE) ∧
    ((run_ops bitcask_nifs_keydir_new
      [keydir_op.put key_k1 1 10 0 100, keydir_op.put key_k2 1 1 0 5,
        keydir_op.put key_k2 2 2 0 5, keydir_op.remove key_k1,
        keydir_op.put key_k1 3 3 3 3]).keydir.map hh_key).Nodup :=
  ⟨by decide,
    (unique_keys
      [keydir_op.put key_k1 1 10 0 100, keydir_op.put key_k2 1 1 0 5,
        keydir_op.put key_k2 2 2 0 5, keydir_op.remove key_k1, keydir_op.put key_k1 3 3 3 3]
      (by decide)).1⟩

/-! ## C12: the stored tstamp never decreases -/

theorem stored_tstamp_some_iff (S : bitcask_keydir_handle) (k : ErlNifBinary) (T : Nat) :
    stored_tstamp S k = some T ↔
      ∃ i e, KEYDIR_HASH_FIND S.keydir k = some i ∧ S.keydir[i]? = some e ∧ e.tstamp = T := by
  constructor
  · intro h
    cases hf : KEYDIR_HASH_FIND S.keydir k with
    | none =>
      rw [stored_tstamp, get_of_find_none S k hf] at h
      cases h
    | some i =>
      obtain ⟨e, he, _⟩ := find_some_get _ _ _ hf
      rw [stored_tstamp, get_of_find_some S k i e hf he] at h
      exact ⟨i, e, rfl, he, Option.some.inj h⟩
  · rintro ⟨i, e, hf, he, rfl⟩
    rw [stored_tstamp, get_of_find_some S k i e hf he]

theorem stored_tstamp_put (S : bitcask_keydir_handle) (k : ErlNifBinary) (T f v p t : Nat)
    (h : stored_tstamp S k = some T) :
    ∃ T', stored_tstamp (bitcask_nifs_keydir_put S k f v p t).2 k = some T' ∧ T ≤ T' := by
  obtain ⟨i, e, hf, he, rfl⟩ := (stored_tstamp_some_iff S k T).1 h
  rw [put_of_find_some _ _ _ _ _ _ i e hf he]
  by_cases hle : e.tstamp ≤ t
  · rw [if_pos hle]
    refine ⟨t, ?_, hle⟩
    rw [stored_tstamp_some_iff]
    have hlt := find_lt_length _ _ _ hf
    refine ⟨i, ⟨f, v, p, t, e.key_sz, e.key⟩, ?_, ?_, rfl⟩
    · exact (find_set S.keydir i e ⟨f, v, p, t, e.key_sz, e.key⟩ k he rfl rfl).trans hf
    · show (S.keydir.set i _)[i]? = _
      simp [List.getElem?_set, hlt]
  · rw [if_neg hle]
    exact ⟨e.tstamp, h, Nat.le_refl _⟩

theorem put_all_append (S : bitcask_keydir_handle) (k : ErlNifBinary)
    (calls1 calls2 : List put_args) :
    put_all S k (calls1 ++ calls2) = put_all (put_all S k calls1) k calls2 := by
  induction calls1 generalizing S with
  | nil => rfl
  | cons a rest ih => exact ih _

theorem stored_tstamp_put_all (S : bitcask_keydir_handle) (k : ErlNifBinary) (T : Nat)
    (calls : List put_args) (h : stored_tstamp S k = some T) :
    ∃ T', stored_tstamp (put_all S k calls) k = some T' ∧ T ≤ T' := by
  induction calls generalizing S T with
  | nil => exact ⟨T, h, Nat.le_refl _⟩
  | cons a rest ih =>
    obtain ⟨T1, h1, hle1⟩ := stored_tstamp_put S k T a.file_id a.value_sz a.value_pos a.tstamp h
    obtain ⟨T2, h2, hle2⟩ := ih _ T1 h1
    exact ⟨T2, h2, Nat.le_trans hle1 hle2⟩

/-- C12: for every store in which key `k` is present and every put to `k`, accepted or rejected,
the tstamp stored for `k` after the put is `>=` the tstamp stored before; and along any sequence
of puts to `k` the tstamp stored after a longer part of the sequence is `>=` the tstamp stored
after a shorter part. -/
theorem tstamp_never_decreases (S : bitcask_keydir_handle) (k : ErlNifBinary) (T : Nat)
    (hpres : stored_tstamp S k = some T) :
    (∀ f v p t, ∃ T', stored_tstamp (bitcask_nifs_keydir_put S k f v p t).2 k = some T' ∧
      T ≤ T') ∧
    (∀ calls1 calls2 : List put_args, ∃ T1 T2,
      stored_tstamp (put_all S k calls1) k = some T1 ∧
      stored_tstamp (put_all S k (calls1 ++ calls2)) k = some T2 ∧ T ≤ T1 ∧ T1 ≤ T2) := by
  refine ⟨fun f v p t => stored_tstamp_put S k T f v p t hpres, ?_⟩
  intro calls1 calls2
  obtain ⟨T1, h1, hle1⟩ := stored_tstamp_put_all S k T calls1 hpres
  obtain ⟨T2, h2, hle2⟩ := stored_tstamp_put_all (put_all S k calls1) k T1 calls2 h1
  rw [← put_all_append] at h2
  exact ⟨T1, T2, h1, h2, hle1, hle2⟩

/-- Witness of `tstamp_never_decreases`: `"k1"` stored with tstamp 100; after puts with tstamps
50 and 120 the stored tstamps are 100 and 120. -/
theorem tstamp_never_decreases_witness :
    stored_tstamp store_k1 key_k1 = some 100 ∧
    stored_tstamp (put_all store_k1 key_k1 [⟨1, 20, 10, 50⟩]) key_k1 = some 100 ∧
    stored_tstamp (put_all store_k1 key_k1 ([⟨1, 20, 10, 50⟩] ++ [⟨2, 2, 2, 120⟩])) key_k1 =
      some 120 ∧
    ∃ T', stored_tstamp (bitcask_nifs_keydir_put store_k1 key_k1 1 20 10 50).2 key_k1 = some T' ∧
      100 ≤ T' :=
  ⟨by decide, by decide, by decide,
    (tstamp_never_decreases store_k1 key_k1 100 (by decide)).1 1 20 10 50⟩

/-! ## C15: the new store -/

/-- C15: for the store returned by `new`, `info` returns `(0,0)`, `get k` returns `not_found`
for every key `k`, and `begin` returns `not_found`. -/
theorem new_store_empty :
    bitcask_nifs_keydir_info bitcask_nifs_keydir_new = (0, 0) ∧
    (∀ k, bitcask_nifs_keydir_get bitcask_nifs_keydir_new k = get_result.not_found) ∧
    bitcask_nifs_keydir_itr bitcask_nifs_keydir_new = itr_result.not_found :=
  ⟨rfl, fun k => get_of_find_none _ k rfl, rfl⟩

/-! ## Lemmas on the entry a lookup returns -/

/-- The entry that `keydir_get` reads is the first entry of the chain that matches the key. -/
theorem lookup_eq_find? (l : List bitcask_keydir_entry) (k : ErlNifBinary) :
    (KEYDIR_HASH_FIND l k).bind (l[·]?) = l.find? (fun e => hh_match e k) := by
  induction l with
  | nil => rfl
  | cons a l ih =>
    by_cases hm : hh_match a k = true
    · simp [KEYDIR_HASH_FIND, hm]
    · simp only [KEYDIR_HASH_FIND, hm, Bool.false_eq_true, if_false, List.find?_cons]
      rw [← ih]
      cases KEYDIR_HASH_FIND l k <;> simp

theorem get_eq_find? (S : bitcask_keydir_handle) (k : ErlNifBinary) :
    bitcask_nifs_keydir_get S k =
      match S.keydir.find? (fun e => hh_match e k) with
      | some e => get_result.bitcask_entry k e.file_id e.value_sz e.value_pos e.tstamp
      | none => get_result.not_found := by
  rw [bitcask_nifs_keydir_get, lookup_eq_find?]

theorem find?_set_of_not (l : List bitcask_keydir_entry) (q : bitcask_keydir_entry → Bool)
    (i : Nat) (old e : bitcask_keydir_entry) (hi : l[i]? = some old) (hold : q old = false)
    (he : q e = false) : (l.set i e).find? q = l.find? q := by
  induction l generalizing i with
  | nil => simp
  | cons a l ih =>
    cases i with
    | zero =>
      simp at hi
      subst hi
      simp [List.find?_cons, hold, he]
    | succ j =>
      simp at hi
      simp [List.find?_cons, ih j hi]

theorem find?_eraseIdx_of_not (l : List bitcask_keydir_entry) (q : bitcask_keydir_entry → Bool)
    (i : Nat) (old : bitcask_keydir_entry) (hi : l[i]? = some old) (hold : q old = false) :
    (l.eraseIdx i).find? q = l.find? q := by
  induction l generalizing i with
  | nil => simp
  | cons a l ih =>
    cases i with
    | zero =>
      simp at hi
      subst hi
      simp [List.find?_cons, hold]
    | succ j =>
      simp at hi
      simp [List.find?_cons, ih j hi]

theorem hh_match_other (e : bitcask_keydir_entry) (k k2 : ErlNifBinary) (hne : k ≠ k2)
    (hm : hh_match e k = true) : hh_match e k2 = false := by
  cases h2 : hh_match e k2 with
  | false => rfl
  | true =>
    exact absurd (((hh_match_iff e k).1 hm).2.symm.trans ((hh_match_iff e k2).1 h2).2) hne

/-! ## C17: other keys are not disturbed -/

/-- After the put of a key of `2^16 + 1` bytes into the new store, the key made of its first
byte is found. -/
theorem put_key_65537_get_first (b : Byte) (rest : ErlNifBinary) (hrest : rest.length = 65536) :
    bitcask_nifs_keydir_get bitcask_nifs_keydir_new [b] = get_result.not_found ∧
    bitcask_nifs_keydir_get (bitcask_nifs_keydir_put bitcask_nifs_keydir_new (b :: rest) 1 1 0 5).2
      [b] = get_result.bitcask_entry [b] 1 1 0 5 := by
  have hf : KEYDIR_HASH_FIND bitcask_nifs_keydir_new.keydir (b :: rest) = none := rfl
  refine ⟨get_of_find_none _ _ rfl, ?_⟩
  rw [put_of_find_none _ _ _ _ _ _ hf]
  simp [bitcask_nifs_keydir_get, bitcask_nifs_keydir_new, KEYDIR_HASH_FIND, hh_match, hh_key,
    hrest, UINT16_RANGE]

/-- C17 as stated fails: `"a"` is absent from the new store, and after the put of the key of
`2^16 + 1` bytes that starts with `"a"`, a different key, `get("a")` returns that put's
entry. -/
theorem other_key_long_key_counterexample :
    bitcask_nifs_keydir_get bitcask_nifs_keydir_new [97] = get_result.not_found ∧
    bitcask_nifs_keydir_get (bitcask_nifs_keydir_put bitcask_nifs_keydir_new long_key 1 1 0 5).2
      [97] = get_result.bitcask_entry [97] 1 1 0 5 :=
  put_key_65537_get_first 97 (List.replicate 65536 0) (List.length_replicate 65536 0)

theorem find?_put_other (S : bitcask_keydir_handle) (k k2 : ErlNifBinary) (f v p t : Nat)
    (hne : k ≠ k2) (hlen : k.length < UINT16_RANGE) :
    (bitcask_nifs_keydir_put S k f v p t).2.keydir.find? (fun e => hh_match e k2) =
      S.keydir.find? (fun e => hh_match e k2) := by
  cases hf : KEYDIR_HASH_FIND S.keydir k with
  | none =>
    rw [put_of_find_none _ _ _ _ _ _ hf]
    have hm : hh_match ⟨f, v, p, t, k.length % UINT16_RANGE, k⟩ k = true := by
      simp [hh_match, hh_key, Nat.mod_eq_of_lt hlen]
    have hno := hh_match_other _ k k2 hne hm
    simp only [List.find?_append, List.find?_cons, hno, List.find?_nil, Option.or_none]
  | some i =>
    obtain ⟨old, he, hm⟩ := find_some_get _ _ _ hf
    rw [put_of_find_some _ _ _ _ _ _ i old hf he]
    by_cases hle : old.tstamp ≤ t
    · rw [if_pos hle]
      have hno := hh_match_other _ k k2 hne hm
      have hno2 : hh_match ⟨f, v, p, t, old.key_sz, old.key⟩ k2 = false := hno
      exact find?_set_of_not S.keydir (fun e => hh_match e k2) i old _ he hno hno2
    · rw [if_neg hle]

theorem find?_remove_other (S : bitcask_keydir_handle) (k k2 : ErlNifBinary) (hne : k ≠ k2) :
    (bitcask_nifs_keydir_remove S k).2.keydir.find? (fun e => hh_match e k2) =
      S.keydir.find? (fun e => hh_match e k2) := by
  cases hf : KEYDIR_HASH_FIND S.keydir k with
  | none => rw [remove_of_find_none S k hf]
  | some i =>
    obtain ⟨old, he, hm⟩ := find_some_get _ _ _ hf
    rw [remove_of_find_some S k i old hf he]
    have hno := hh_match_other _ k k2 hne hm
    exact find?_eraseIdx_of_not S.keydir (fun e => hh_match e k2) i old he hno

/-- C17 (amended): for every store `S` and every two distinct keys `k` and `k'` (byte sequences
of any length, one of them possibly a prefix of the other), `remove k` leaves the result of
`get k'` unchanged, and so does `put k` when `k` is shorter than `2^16` bytes. -/
theorem other_key_undisturbed (S : bitcask_keydir_handle) (k k' : ErlNifBinary)
    (hne : k ≠ k') :
    (∀ f v p t, k.length < UINT16_RANGE →
      bitcask_nifs_keydir_get (bitcask_nifs_keydir_put S k f v p t).2 k' =
        bitcask_nifs_keydir_get S k') ∧
    bitcask_nifs_keydir_get (bitcask_nifs_keydir_remove S k).2 k' =
      bitcask_nifs_keydir_get S k' := by
  constructor
  · intro f v p t hlen
    rw [get_eq_find?, get_eq_find?, find?_put_other S k k' f v p t hne hlen]
  · rw [get_eq_find?, get_eq_find?, find?_remove_other S k k' hne]

/-- Witness of `other_key_undisturbed`: `"k"` is a prefix of `"k1"`; put and remove of `"k"`
leave `get("k1")` as it was. -/
theorem other_key_undisturbed_witness :
    ([107] : ErlNifBinary) ≠ key_k1 ∧ ([107] : ErlNifBinary).length < UINT16_RANGE ∧
    bitcask_nifs_keydir_get (bitcask_nifs_keydir_put store_k1 [107] 7 7 7 7).2 key_k1 =
      get_result.bitcask_entry key_k1 1 10 0 100 ∧
    bitcask_nifs_keydir_get
      (bitcask_nifs_keydir_remove (bitcask_nifs_keydir_put store_k1 [107] 7 7 7 7).2 [107]).2
      key_k1 = get_result.bitcask_entry key_k1 1 10 0 100 :=
  ⟨by decide, by decide,
    ((other_key_undisturbed store_k1 [107] key_k1 (by decide)).1 7 7 7 7 (by decide)).trans
      (by decide),
    ((other_key_undisturbed (bitcask_nifs_keydir_put store_k1 [107] 7 7 7 7).2 [107] key_k1
      (by decide)).2).trans (by decide)⟩

/-! ## Lemmas on the last entry of the chain -/

theorem set_append_last (l : List bitcask_keydir_entry) (x y : bitcask_keydir_entry) :
    (l ++ [x]).set l.length y = l ++ [y] := by
  induction l with
  | nil => rfl
  | cons a l ih => simp [ih]

theorem eraseIdx_append_last (l : List bitcask_keydir_entry) (x : bitcask_keydir_entry) :
    (l ++ [x]).eraseIdx l.length = l := by
  induction l with
  | nil => rfl
  | cons a l ih => simp [ih]

theorem set_same (l : List bitcask_keydir_entry) (i : Nat) (e : bitcask_keydir_entry)
    (h : l[i]? = some e) : l.set i e = l := by
  induction l generalizing i with
  | nil => rfl
  | cons a l ih =>
    cases i with
    | zero =>
      simp at h
      subst h
      rfl
    | succ j =>
      simp at h
      simp [ih j h]

/-! ## C18: remove undoes an inserting put -/

/-- C18: for every store `S`, every key `k` absent from `S` with `len(k) < 65536` and all
parameters, `put k` followed by `remove k` yields `S` again: the same entries, the same
`key_count` and the same `key_bytes`; the amount `remove` subtracts, the stored `key_sz`, is the
amount `put` added. -/
theorem remove_undoes_put (S : bitcask_keydir_handle) (k : ErlNifBinary) (f v p t : Nat)
    (habs : bitcask_nifs_keydir_get S k = get_result.not_found)
    (hlen : k.length < UINT16_RANGE) :
    bitcask_nifs_keydir_remove (bitcask_nifs_keydir_put S k f v p t).2 k =
      (remove_result.ok, S) ∧
    (∃ e, (bitcask_nifs_keydir_put S k f v p t).2.keydir.getLast? = some e ∧
      e.key_sz = k.length) := by
  have hf := (get_not_found_iff S k).1 habs
  obtain ⟨h1, h2⟩ := find_put_of_find_none S k f v p t hf hlen
  rw [remove_of_find_some _ k _ _ h1 h2]
  have hmod : k.length % UINT16_RANGE = k.length := Nat.mod_eq_of_lt hlen
  rw [put_of_find_none _ _ _ _ _ _ hf, hmod]
  constructor
  · cases S with
    | mk keydir key_count key_bytes =>
      simp only [Prod.mk.injEq, true_and]
      show (⟨(keydir ++ [_]).eraseIdx keydir.length, key_count + 1 - 1,
        key_bytes + k.length - k.length⟩ : bitcask_keydir_handle) = _
      rw [eraseIdx_append_last, Nat.add_sub_cancel, Nat.add_sub_cancel]
  · exact ⟨⟨f, v, p, t, k.length, k⟩, by simp, rfl⟩

/-- Witness of `remove_undoes_put`: `"k2"` put into the store that holds `"k1"` and removed
again. -/
theorem remove_undoes_put_witness :
    bitcask_nifs_keydir_get store_k1 key_k2 = get_result.not_found ∧
    key_k2.length < UINT16_RANGE ∧
    bitcask_nifs_keydir_remove (bitcask_nifs_keydir_put store_k1 key_k2 2 2 0 5).2 key_k2 =
      (remove_result.ok, store_k1) :=
  ⟨by decide, by decide, (remove_undoes_put store_k1 key_k2 2 2 0 5 (by decide) (by decide)).1⟩

/-! ## No tombstone in a well-formed store -/

theorem key_sz_in_range_new : key_sz_in_range bitcask_nifs_keydir_new := by
  decide

theorem put_key_sz_in_range (S : bitcask_keydir_handle) (k : ErlNifBinary) (f v p t : Nat)
    (h : key_sz_in_range S) : key_sz_in_range (bitcask_nifs_keydir_put S k f v p t).2 := by
  cases hf : KEYDIR_HASH_FIND S.keydir k with
  | none =>
    rw [put_of_find_none _ _ _ _ _ _ hf]
    intro e he
    rcases List.mem_append.1 he with h1 | h1
    · exact h e h1
    · rw [List.mem_singleton] at h1
      subst h1
      exact Nat.mod_lt _ (by decide)
  | some i =>
    obtain ⟨old, he, _⟩ := find_some_get _ _ _ hf
    rw [put_of_find_some _ _ _ _ _ _ i old hf he]
    by_cases hle : old.tstamp ≤ t
    · rw [if_pos hle]
      intro e hmem
      rcases List.mem_or_eq_of_mem_set hmem with h1 | h1
      · exact h e h1
      · subst h1
        exact h old (List.getElem?_mem he)
    · rw [if_neg hle]
      exact h

theorem remove_key_sz_in_range (S : bitcask_keydir_handle) (k : ErlNifBinary)
    (h : key_sz_in_range S) : key_sz_in_range (bitcask_nifs_keydir_remove S k).2 := by
  cases hf : KEYDIR_HASH_FIND S.keydir k with
  | none => rw [remove_of_find_none S k hf]; exact h
  | some i =>
    obtain ⟨e, he, _⟩ := find_some_get _ _ _ hf
    rw [remove_of_find_some S k i e hf he]
    exact fun e2 he2 => h e2 ((List.eraseIdx_sublist S.keydir i).subset he2)

/-- Every store built by put and remove calls, whatever their keys, keeps `key_sz` in the range
of `uint16_t`. -/
theorem run_ops_key_sz_in_range (S : bitcask_keydir_handle) (ops : List keydir_op)
    (h : key_sz_in_range S) : key_sz_in_range (run_ops S ops) := by
  induction ops generalizing S with
  | nil => exact h
  | cons op ops ih =>
    show key_sz_in_range (run_ops (apply_op S op) ops)
    apply ih
    cases op with
    | put key f v p t => exact put_key_sz_in_range S key f v p t h
    | remove key => exact remove_key_sz_in_range S key h

/-- In a well-formed store (distinct keys, exact counters, `key_sz` a `uint16_t`) in which key
`k` is present with stored timestamp `T`, after `remove k` a put to `k` with any tstamp `t`,
also `t < T`, answers `ok` and `get k` then returns that put's parameters. -/
theorem no_tombstone_wf (S : bitcask_keydir_handle) (k : ErlNifBinary) (f0 v0 p0 T : Nat)
    (hwf : keydir_wf S) (hrange : key_sz_in_range S)
    (hpres : bitcask_nifs_keydir_get S k = get_result.bitcask_entry k f0 v0 p0 T) :
    ∀ f v p t,
      (bitcask_nifs_keydir_put (bitcask_nifs_keydir_remove S k).2 k f v p t).1 = put_result.ok ∧
      bitcask_nifs_keydir_get
        (bitcask_nifs_keydir_put (bitcask_nifs_keydir_remove S k).2 k f v p t).2 k =
        get_result.bitcask_entry k f v p t := by
  intro f v p t
  obtain ⟨i, e, hf, he, -⟩ := (get_entry_iff _ _ _ _ _ _).1 hpres
  obtain ⟨e2, he2, hm⟩ := find_some_get _ _ _ hf
  rw [he] at he2
  cases he2
  have hlen : k.length < UINT16_RANGE := by
    rw [← ((hh_match_iff e k).1 hm).1]
    exact hrange e (List.getElem?_mem he)
  have hnone := find_remove_self S k hwf
  obtain ⟨h1, h2⟩ := find_put_of_find_none _ k f v p t hnone hlen
  constructor
  · rw [put_of_find_none _ _ _ _ _ _ hnone]
  · rw [get_of_find_some _ k _ _ h1 h2]

/-! ## C13: put is idempotent -/

/-- The put of a key of `2^16 + 1` bytes, made twice, inserts two entries. -/
theorem put_same_twice_key_65537 (k : ErlNifBinary) (hk : k.length = 65537) :
    (bitcask_nifs_keydir_put bitcask_nifs_keydir_new k 1 1 0 5).2.key_count = 1 ∧
    (bitcask_nifs_keydir_put
      (bitcask_nifs_keydir_put bitcask_nifs_keydir_new k 1 1 0 5).2 k 1 1 0 5).2.key_count =
      2 := by
  have hf : KEYDIR_HASH_FIND bitcask_nifs_keydir_new.keydir k = none := rfl
  have hf2 : KEYDIR_HASH_FIND
      (bitcask_nifs_keydir_put bitcask_nifs_keydir_new k 1 1 0 5).2.keydir k = none := by
    rw [put_of_find_none _ _ _ _ _ _ hf]
    simp [bitcask_nifs_keydir_new, KEYDIR_HASH_FIND, hh_match, hk, UINT16_RANGE]
  constructor
  · rw [put_of_find_none _ _ _ _ _ _ hf]
    rfl
  · rw [put_of_find_none _ _ _ _ _ _ hf2, put_of_find_none _ _ _ _ _ _ hf]
    rfl

/-- C13 as stated fails: for the key of `2^16 + 1` bytes and the new store, one put leaves
`key_count = 1` and the same put made twice leaves `key_count = 2`. -/
theorem put_idempotent_long_key_counterexample :
    (bitcask_nifs_keydir_put bitcask_nifs_keydir_new long_key 1 1 0 5).2.key_count = 1 ∧
    (bitcask_nifs_keydir_put
      (bitcask_nifs_keydir_put bitcask_nifs_keydir_new long_key 1 1 0 5).2
      long_key 1 1 0 5).2.key_count = 2 :=
  put_same_twice_key_65537 long_key long_key_length

/-- C13 (amended): for every store `S`, every key `k` shorter than `2^16` bytes and all
parameters, the same put made a second time right after the first returns the result of the
first and leaves the store of the first (entries, `key_count`, `key_bytes`). -/
theorem put_idempotent (S : bitcask_keydir_handle) (k : ErlNifBinary) (f v p t : Nat)
    (hlen : k.length < UINT16_RANGE) :
    bitcask_nifs_keydir_put (bitcask_nifs_keydir_put S k f v p t).2 k f v p t =
      bitcask_nifs_keydir_put S k f v p t := by
  cases hf : KEYDIR_HASH_FIND S.keydir k with
  | none =>
    obtain ⟨h1, h2⟩ := find_put_of_find_none S k f v p t hf hlen
    rw [put_of_find_some _ k f v p t _ _ h1 h2, if_pos (Nat.le_refl t)]
    have hmod : k.length % UINT16_RANGE = k.length := Nat.mod_eq_of_lt hlen
    rw [put_of_find_none _ _ _ _ _ _ hf, hmod]
    show (put_result.ok, (⟨(S.keydir ++ [_]).set S.keydir.length _, _, _⟩ :
      bitcask_keydir_handle)) = _
    rw [set_append_last]
  | some i =>
    obtain ⟨old, he, _⟩ := find_some_get _ _ _ hf
    have hlt := find_lt_length _ _ _ hf
    rw [put_of_find_some _ _ _ _ _ _ i old hf he]
    by_cases hle : old.tstamp ≤ t
    · rw [if_pos hle]
      have hf2 : KEYDIR_HASH_FIND (S.keydir.set i ⟨f, v, p, t, old.key_sz, old.key⟩) k =
          some i :=
        (find_set S.keydir i old ⟨f, v, p, t, old.key_sz, old.key⟩ k he rfl rfl).trans hf
      have he2 : (S.keydir.set i ⟨f, v, p, t, old.key_sz, old.key⟩)[i]? =
          some ⟨f, v, p, t, old.key_sz, old.key⟩ := by
        simp [List.getElem?_set, hlt]
      rw [put_of_find_some ⟨S.keydir.set i ⟨f, v, p, t, old.key_sz, old.key⟩, S.key_count,
        S.key_bytes⟩ k f v p t i _ hf2 he2, if_pos (Nat.le_refl t)]
      show (put_result.ok, (⟨(S.keydir.set i _).set i _, _, _⟩ : bitcask_keydir_handle)) = _
      rw [List.set_set]
    · rw [if_neg hle, put_of_find_some _ _ _ _ _ _ i old hf he, if_neg hle]

/-- Witness of `put_idempotent`: the put of `"k2"` made twice on the store that holds `"k1"`. -/
theorem put_idempotent_witness :
    key_k2.length < UINT16_RANGE ∧
    bitcask_nifs_keydir_put (bitcask_nifs_keydir_put store_k1 key_k2 2 2 0 5).2 key_k2 2 2 0 5 =
      bitcask_nifs_keydir_put store_k1 key_k2 2 2 0 5 :=
  ⟨by decide, put_idempotent store_k1 key_k2 2 2 0 5 (by decide)⟩

/-! ## C14: put is order-tolerant -/

/-- Two puts of a key of `2^16 + 1` bytes with tstamps 3 and 5 made in the two orders leave
different chains, and the put with the smaller tstamp made second is answered `ok`. -/
theorem put_two_orders_key_65537 (k : ErlNifBinary) (hk : k.length = 65537) :
    (bitcask_nifs_keydir_put
      (bitcask_nifs_keydir_put bitcask_nifs_keydir_new k 1 1 0 3).2 k 2 2 0 5).2.keydir.map
        (fun e => e.tstamp) = [3, 5] ∧
    (bitcask_nifs_keydir_put
      (bitcask_nifs_keydir_put bitcask_nifs_keydir_new k 2 2 0 5).2 k 1 1 0 3).2.keydir.map
        (fun e => e.tstamp) = [5, 3] ∧
    (bitcask_nifs_keydir_put
      (bitcask_nifs_keydir_put bitcask_nifs_keydir_new k 2 2 0 5).2 k 1 1 0 3).1 =
      put_result.ok := by
  have hf : KEYDIR_HASH_FIND bitcask_nifs_keydir_new.keydir k = none := rfl
  have hf2 : ∀ f v p t, KEYDIR_HASH_FIND
      (bitcask_nifs_keydir_put bitcask_nifs_keydir_new k f v p t).2.keydir k = none := by
    intro f v p t
    rw [put_of_find_none _ _ _ _ _ _ hf]
    simp [bitcask_nifs_keydir_new, KEYDIR_HASH_FIND, hh_match, hk, UINT16_RANGE]
  refine ⟨?_, ?_, ?_⟩
  · rw [put_of_find_none _ _ _ _ _ _ (hf2 1 1 0 3), put_of_find_none _ _ _ _ _ _ hf]
    rfl
  · rw [put_of_find_none _ _ _ _ _ _ (hf2 2 2 0 5), put_of_find_none _ _ _ _ _ _ hf]
    rfl
  · rw [put_of_find_none _ _ _ _ _ _ (hf2 2 2 0 5)]

/-- C14 as stated fails: for the key of `2^16 + 1` bytes and the new store, the puts with
tstamps 3 and 5 leave the chain `[3, 5]` in one order and `[5, 3]` in the other, and the put
with tstamp 3 made second is answered `ok`. -/
theorem put_order_long_key_counterexample :
    (bitcask_nifs_keydir_put
      (bitcask_nifs_keydir_put bitcask_nifs_keydir_new long_key 1 1 0 3).2
      long_key 2 2 0 5).2.keydir.map (fun e => e.tstamp) = [3, 5] ∧
    (bitcask_nifs_keydir_put
      (bitcask_nifs_keydir_put bitcask_nifs_keydir_new long_key 2 2 0 5).2
      long_key 1 1 0 3).2.keydir.map (fun e => e.tstamp) = [5, 3] ∧
    (bitcask_nifs_keydir_put
      (bitcask_nifs_keydir_put bitcask_nifs_keydir_new long_key 2 2 0 5).2
      long_key 1 1 0 3).1 = put_result.ok :=
  put_two_orders_key_65537 long_key long_key_length

/-- An accepted put to a present key: the store it leaves, and where the lookup finds the key
afterwards. -/
theorem put_accepted_facts (S : bitcask_keydir_handle) (k : ErlNifBinary) (f v p t i : Nat)
    (old : bitcask_keydir_entry) (hf : KEYDIR_HASH_FIND S.keydir k = some i)
    (he : S.keydir[i]? = some old) (hle : old.tstamp ≤ t) :
    bitcask_nifs_keydir_put S k f v p t =
      (put_result.ok,
        ⟨S.keydir.set i ⟨f, v, p, t, old.key_sz, old.key⟩, S.key_count, S.key_bytes⟩) ∧
    KEYDIR_HASH_FIND (S.keydir.set i ⟨f, v, p, t, old.key_sz, old.key⟩) k = some i ∧
    (S.keydir.set i ⟨f, v, p, t, old.key_sz, old.key⟩)[i]? =
      some ⟨f, v, p, t, old.key_sz, old.key⟩ := by
  have hlt := find_lt_length _ _ _ hf
  refine ⟨?_, ?_, ?_⟩
  · rw [put_of_find_some _ _ _ _ _ _ i old hf he, if_pos hle]
  · exact (find_set S.keydir i old ⟨f, v, p, t, old.key_sz, old.key⟩ k he rfl rfl).trans hf
  · simp [List.getElem?_set, hlt]

theorem put_rejected_facts (S : bitcask_keydir_handle) (k : ErlNifBinary) (f v p t i : Nat)
    (old : bitcask_keydir_entry) (hf : KEYDIR_HASH_FIND S.keydir k = some i)
    (he : S.keydir[i]? = some old) (hlt : t < old.tstamp) :
    bitcask_nifs_keydir_put S k f v p t = (put_result.already_exists, S) := by
  rw [put_of_find_some _ _ _ _ _ _ i old hf he, if_neg (by omega)]

/-- The two orders of two puts with different tstamps: the store either order leaves and the
result of the older put made second. -/
theorem put_two_orders (S : bitcask_keydir_handle) (k : ErlNifBinary) (a b : put_args)
    (hlen : k.length < UINT16_RANGE) (hlt : a.tstamp < b.tstamp) :
    (bitcask_nifs_keydir_put
      (bitcask_nifs_keydir_put S k a.file_id a.value_sz a.value_pos a.tstamp).2
      k b.file_id b.value_sz b.value_pos b.tstamp).2 =
    (bitcask_nifs_keydir_put
      (bitcask_nifs_keydir_put S k b.file_id b.value_sz b.value_pos b.tstamp).2
      k a.file_id a.value_sz a.value_pos a.tstamp).2 ∧
    bitcask_nifs_keydir_put
      (bitcask_nifs_keydir_put S k b.file_id b.value_sz b.value_pos b.tstamp).2
      k a.file_id a.value_sz a.value_pos a.tstamp =
      (put_result.already_exists,
        (bitcask_nifs_keydir_put S k b.file_id b.value_sz b.value_pos b.tstamp).2) := by
  cases hf : KEYDIR_HASH_FIND S.keydir k with
  | none =>
    have hmod : k.length % UINT16_RANGE = k.length := Nat.mod_eq_of_lt hlen
    obtain ⟨ha1, ha2⟩ :=
      find_put_of_find_none S k a.file_id a.value_sz a.value_pos a.tstamp hf hlen
    obtain ⟨hb1, hb2⟩ :=
      find_put_of_find_none S k b.file_id b.value_sz b.value_pos b.tstamp hf hlen
    have hrej := put_rejected_facts _ k a.file_id a.value_sz a.value_pos a.tstamp _ _ hb1 hb2 hlt
    have hacc := (put_accepted_facts _ k b.file_id b.value_sz b.value_pos b.tstamp _ _ ha1 ha2
      (Nat.le_of_lt hlt)).1
    refine ⟨?_, hrej⟩
    rw [hrej, hacc, put_of_find_none _ _ _ _ _ _ hf, put_of_find_none _ _ _ _ _ _ hf, hmod]
    show (⟨(S.keydir ++ [_]).set S.keydir.length _, _, _⟩ : bitcask_keydir_handle) = _
    rw [set_append_last]
  | some i =>
    obtain ⟨old, he, _⟩ := find_some_get _ _ _ hf
    by_cases hb : old.tstamp ≤ b.tstamp
    · obtain ⟨hB, hB1, hB2⟩ :=
        put_accepted_facts S k b.file_id b.value_sz b.value_pos b.tstamp i old hf he hb
      have hrej : bitcask_nifs_keydir_put
          (bitcask_nifs_keydir_put S k b.file_id b.value_sz b.value_pos b.tstamp).2
          k a.file_id a.value_sz a.value_pos a.tstamp =
          (put_result.already_exists,
            (bitcask_nifs_keydir_put S k b.file_id b.value_sz b.value_pos b.tstamp).2) := by
        rw [hB]
        exact put_rejected_facts _ k a.file_id a.value_sz a.value_pos a.tstamp i _ hB1 hB2 hlt
      refine ⟨?_, hrej⟩
      rw [hrej]
      by_cases ha : old.tstamp ≤ a.tstamp
      · obtain ⟨hA, hA1, hA2⟩ :=
          put_accepted_facts S k a.file_id a.value_sz a.value_pos a.tstamp i old hf he ha
        rw [hA]
        have hAB := (put_accepted_facts
          ⟨S.keydir.set i ⟨a.file_id, a.value_sz, a.value_pos, a.tstamp, old.key_sz, old.key⟩,
            S.key_count, S.key_bytes⟩
          k b.file_id b.value_sz b.value_pos b.tstamp i _ hA1 hA2 (Nat.le_of_lt hlt)).1
        rw [hAB, hB]
        show (⟨(S.keydir.set i _).set i _, _, _⟩ : bitcask_keydir_handle) = _
        rw [List.set_set]
      · rw [put_rejected_facts S k a.file_id a.value_sz a.value_pos a.tstamp i old hf he
          (by omega)]
    · have hB := put_rejected_facts S k b.file_id b.value_sz b.value_pos b.tstamp i old hf he
        (by omega)
      have hA := put_rejected_facts S k a.file_id a.value_sz a.value_pos a.tstamp i old hf he
        (by omega)
      simp only [hA, hB, and_self]

/-- C14 (amended): for every store `S`, every key `k` shorter than `2^16` bytes and two puts to
`k` of which the first has the smaller tstamp, the two puts applied in either order yield the
same final store; when `k` was absent from `S`, `k` holds in it the parameters of the put with
the larger tstamp; and the put with the smaller tstamp, applied second, is answered
`already_exists`. -/
theorem put_order_tolerant (S : bitcask_keydir_handle) (k : ErlNifBinary) (a b : put_args)
    (hlen : k.length < UINT16_RANGE) (hlt : a.tstamp < b.tstamp) :
    (bitcask_nifs_keydir_put
      (bitcask_nifs_keydir_put S k a.file_id a.value_sz a.value_pos a.tstamp).2
      k b.file_id b.value_sz b.value_pos b.tstamp).2 =
    (bitcask_nifs_keydir_put
      (bitcask_nifs_keydir_put S k b.file_id b.value_sz b.value_pos b.tstamp).2
      k a.file_id a.value_sz a.value_pos a.tstamp).2 ∧
    (bitcask_nifs_keydir_get S k = get_result.not_found →
      bitcask_nifs_keydir_get
        (bitcask_nifs_keydir_put
          (bitcask_nifs_keydir_put S k a.file_id a.value_sz a.value_pos a.tstamp).2
          k b.file_id b.value_sz b.value_pos b.tstamp).2 k =
        get_result.bitcask_entry k b.file_id b.value_sz b.value_pos b.tstamp) ∧
    (bitcask_nifs_keydir_put
      (bitcask_nifs_keydir_put S k b.file_id b.value_sz b.value_pos b.tstamp).2
      k a.file_id a.value_sz a.value_pos a.tstamp).1 = put_result.already_exists := by
  obtain ⟨h1, h2⟩ := put_two_orders S k a b hlen hlt
  refine ⟨h1, ?_, by rw [h2]⟩
  intro habs
  have hf := (get_not_found_iff S k).1 habs
  obtain ⟨hb1, hb2⟩ :=
    find_put_of_find_none S k b.file_id b.value_sz b.value_pos b.tstamp hf hlen
  rw [h1, h2]
  exact get_of_find_some _ k _ _ hb1 hb2

/-- Witness of `put_order_tolerant`: puts to `"k2"` with tstamps 3 and 5 on the store that holds
`"k1"`, in the two orders. -/
theorem put_order_tolerant_witness :
    key_k2.length < UINT16_RANGE ∧ (⟨1, 1, 0, 3⟩ : put_args).tstamp < (⟨2, 2, 0, 5⟩ : put_args).tstamp ∧
    (bitcask_nifs_keydir_put (bitcask_nifs_keydir_put store_k1 key_k2 1 1 0 3).2
      key_k2 2 2 0 5).2 =
    (bitcask_nifs_keydir_put (bitcask_nifs_keydir_put store_k1 key_k2 2 2 0 5).2
      key_k2 1 1 0 3).2 ∧
    (bitcask_nifs_keydir_put (bitcask_nifs_keydir_put store_k1 key_k2 2 2 0 5).2
      key_k2 1 1 0 3).1 = put_result.already_exists :=
  ⟨by decide, by decide,
    (put_order_tolerant store_k1 key_k2 ⟨1, 1, 0, 3⟩ ⟨2, 2, 0, 5⟩ (by decide) (by decide)).1,
    (put_order_tolerant store_k1 key_k2 ⟨1, 1, 0, 3⟩ ⟨2, 2, 0, 5⟩ (by decide)
      (by decide)).2.2⟩

/-! ## C16: allocation failure -/

/-- C16, the code at the failing input: `put` of an absent key whose `enif_alloc` returns the
null pointer has no defined result, in particular it returns no `allocation_error` term, and so
has `copy` when `enif_alloc_resource` or an `enif_alloc` returns the null pointer; with
successful allocations both are the functions modelled above. -/
theorem allocation_failure_unhandled :
    (∀ S k f v p t, bitcask_nifs_keydir_get S k = get_result.not_found →
      bitcask_nifs_keydir_put_alloc false S k f v p t = none) ∧
    (∀ ok alloc S, bitcask_nifs_keydir_copy_alloc false ok alloc S = none) ∧
    bitcask_nifs_keydir_put_alloc false bitcask_nifs_keydir_new key_k1 1 10 0 100 = none ∧
    bitcask_nifs_keydir_copy_alloc true (fun _ => false) (fun _ => zero_block) store_k1 = none ∧
    (∀ S k f v p t, bitcask_nifs_keydir_put_alloc true S k f v p t =
      some (bitcask_nifs_keydir_put S k f v p t)) ∧
    (∀ alloc S, bitcask_nifs_keydir_copy_alloc true (fun _ => true) alloc S =
      some (bitcask_nifs_keydir_copy alloc S)) := by
  refine ⟨?_, ?_, by decide, by decide, ?_, ?_⟩
  · intro S k f v p t habs
    have hf := (get_not_found_iff S k).1 habs
    simp [bitcask_nifs_keydir_put_alloc, hf]
  · intro ok alloc S
    simp [bitcask_nifs_keydir_copy_alloc]
  · intro S k f v p t
    unfold bitcask_nifs_keydir_put_alloc
    cases KEYDIR_HASH_FIND S.keydir k <;> simp
  · intro alloc S
    simp [bitcask_nifs_keydir_copy_alloc]

/-! ## Lemmas on the traversal order -/

theorem itr_loop_null (mem : List bitcask_keydir_entry) (alloc : Nat → Bool) (fuel n : Nat) :
    (itr_loop mem alloc fuel n none).1 = [] := by
  cases fuel <;> rfl

/-- Whatever the allocations do, a traversal yields the tuples of an initial part of the
chain, in the order of the chain. -/
theorem itr_loop_prefix (mem : List bitcask_keydir_entry) (alloc : Nat → Bool) :
    ∀ (fuel n p : Nat), p < mem.length →
      (itr_loop mem alloc fuel n (some p)).1 <+: (mem.drop p).map entry_term := by
  intro fuel
  induction fuel with
  | zero => intro n p _; exact List.nil_prefix
  | succ fuel ih =>
    intro n p hp
    have hget : mem[p]? = some mem[p] := List.getElem?_eq_getElem hp
    have hdrop : mem.drop p = mem[p] :: mem.drop (p + 1) := List.drop_eq_getElem_cons hp
    cases ha : alloc n with
    | false =>
      simp only [itr_loop, bitcask_nifs_keydir_itr_next, hget, ha, Bool.not_false, if_true]
      exact List.nil_prefix
    | true =>
      by_cases hnext : p + 1 < mem.length
      · simp only [itr_loop, bitcask_nifs_keydir_itr_next, hget, ha, Bool.not_true,
          Bool.false_eq_true, if_false, if_pos hnext, hdrop, List.map_cons, entry_term]
        exact (List.prefix_cons_inj _).2 (ih (n + 1) (p + 1) hnext)
      · simp only [itr_loop, bitcask_nifs_keydir_itr_next, hget, ha, Bool.not_true,
          Bool.false_eq_true, if_false, if_neg hnext, hdrop, List.map_cons, entry_term,
          itr_loop_null]
        exact (List.prefix_cons_inj _).2 List.nil_prefix

theorem keydir_traverse_prefix (S : bitcask_keydir_handle) (alloc : Nat → Bool) (fuel : Nat) :
    (keydir_traverse S alloc fuel).1 <+: S.keydir.map entry_term := by
  by_cases hne : S.keydir = []
  · simp [keydir_traverse, bitcask_nifs_keydir_itr, hne]
  · have hpos : 0 < S.keydir.length := List.length_pos.2 hne
    simp only [keydir_traverse, bitcask_nifs_keydir_itr, hne, ne_eq, not_false_eq_true, if_true]
    simpa using itr_loop_prefix S.keydir alloc fuel 0 0 hpos

theorem keydir_traversal_eq (S : bitcask_keydir_handle) :
    keydir_traversal S = S.keydir.map entry_term := by
  by_cases hne : S.keydir = []
  · simp [keydir_traversal, keydir_traverse, bitcask_nifs_keydir_itr, hne]
  · have hpos : 0 < S.keydir.length := List.length_pos.2 hne
    simp only [keydir_traversal, keydir_traverse, bitcask_nifs_keydir_itr, hne, ne_eq,
      not_false_eq_true, if_true]
    rw [itr_loop_all S.keydir (fun _ => true) (fun _ => rfl) _ 0 0 hpos (by omega),
      List.drop_zero]

/-- A put to a present key, accepted or not, leaves every entry of the chain at its position
with its key. -/
theorem put_present_keys (S : bitcask_keydir_handle) (k : ErlNifBinary) (f v p t i : Nat)
    (hf : KEYDIR_HASH_FIND S.keydir k = some i) :
    (bitcask_nifs_keydir_put S k f v p t).2.keydir.map hh_key = S.keydir.map hh_key ∧
    (bitcask_nifs_keydir_put S k f v p t).2.keydir.map (fun e => e.key) =
      S.keydir.map (fun e => e.key) := by
  obtain ⟨old, he, _⟩ := find_some_get _ _ _ hf
  rw [put_of_find_some _ _ _ _ _ _ i old hf he]
  by_cases hle : old.tstamp ≤ t
  · rw [if_pos hle]
    exact ⟨map_set_same S.keydir hh_key i old ⟨f, v, p, t, old.key_sz, old.key⟩ he rfl,
      map_set_same S.keydir (fun e => e.key) i old ⟨f, v, p, t, old.key_sz, old.key⟩ he rfl⟩
  · rw [if_neg hle]
    exact ⟨rfl, rfl⟩

/-- A put that finds no entry links the new entry behind the chain. -/
theorem put_absent_traversal (S : bitcask_keydir_handle) (k : ErlNifBinary) (f v p t : Nat)
    (hf : KEYDIR_HASH_FIND S.keydir k = none) (hlen : k.length < UINT16_RANGE) :
    keydir_traversal (bitcask_nifs_keydir_put S k f v p t).2 =
      keydir_traversal S ++ [get_result.bitcask_entry k f v p t] := by
  rw [keydir_traversal_eq, keydir_traversal_eq, put_of_find_none _ _ _ _ _ _ hf]
  simp [entry_term, hh_key, Nat.mod_eq_of_lt hlen]

theorem run_ops_concat (S : bitcask_keydir_handle) (ops : List keydir_op) (op : keydir_op) :
    run_ops S (ops ++ [op]) = apply_op (run_ops S ops) op := by
  simp [run_ops, List.foldl_append]

theorem run_created_concat (ops : List keydir_op) (op : keydir_op) :
    run_created (ops ++ [op]) = created_step (run_created ops) (ops.length, op) := by
  simp [run_created, List.enum_append, List.foldl_append, List.enumFrom_singleton]

theorem map_eraseIdx (l : List bitcask_keydir_entry) {β : Type} (g : bitcask_keydir_entry → β)
    (i : Nat) : (l.eraseIdx i).map g = (l.map g).eraseIdx i := by
  induction l generalizing i with
  | nil => rfl
  | cons a l ih =>
    cases i with
    | zero => rfl
    | succ j => simp [ih j]

theorem keys_put_none (S : bitcask_keydir_handle) (key : ErlNifBinary) (f v p t : Nat)
    (hf : KEYDIR_HASH_FIND S.keydir key = none) :
    (apply_op S (keydir_op.put key f v p t)).keydir.map (fun e => e.key) =
      S.keydir.map (fun e => e.key) ++ [key] := by
  simp only [apply_op]
  rw [put_of_find_none _ _ _ _ _ _ hf]
  simp

theorem keys_put_some (S : bitcask_keydir_handle) (key : ErlNifBinary) (f v p t i : Nat)
    (hf : KEYDIR_HASH_FIND S.keydir key = some i) :
    (apply_op S (keydir_op.put key f v p t)).keydir.map (fun e => e.key) =
      S.keydir.map (fun e => e.key) :=
  (put_present_keys S key f v p t i hf).2

theorem keys_remove_none (S : bitcask_keydir_handle) (key : ErlNifBinary)
    (hf : KEYDIR_HASH_FIND S.keydir key = none) :
    (apply_op S (keydir_op.remove key)).keydir.map (fun e => e.key) =
      S.keydir.map (fun e => e.key) := by
  simp only [apply_op]
  rw [remove_of_find_none S key hf]

theorem keys_remove_some (S : bitcask_keydir_handle) (key : ErlNifBinary) (i : Nat)
    (hf : KEYDIR_HASH_FIND S.keydir key = some i) :
    (apply_op S (keydir_op.remove key)).keydir.map (fun e => e.key) =
      (S.keydir.map (fun e => e.key)).eraseIdx i := by
  obtain ⟨e, he, _⟩ := find_some_get _ _ _ hf
  simp only [apply_op]
  rw [remove_of_find_some S key i e hf he]
  exact map_eraseIdx S.keydir (fun e => e.key) i

/-- The numbers of the creating calls along the chain: there is one for every entry, they
increase along the chain, and the call with the number of an entry is a put of the key bytes the
entry holds. -/
theorem run_created_inv (ops : List keydir_op) :
    (run_created ops).1 = run_ops bitcask_nifs_keydir_new ops ∧
    (run_created ops).2.length = (run_ops bitcask_nifs_keydir_new ops).keydir.length ∧
    (run_created ops).2.Pairwise (· < ·) ∧
    (∀ n ∈ (run_created ops).2, n < ops.length) ∧
    (∀ j n : Nat, (run_created ops).2[j]? = some n →
      ∃ k f v p t, ops[n]? = some (keydir_op.put k f v p t) ∧
        ((run_ops bitcask_nifs_keydir_new ops).keydir.map (fun e => e.key))[j]? = some k) := by
  induction ops using List.reverseRecOn with
  | nil =>
    refine ⟨rfl, rfl, List.Pairwise.nil, ?_, ?_⟩
    · intro n hn
      cases hn
    · intro j n h
      simp [run_created] at h
  | append_singleton ops op ih =>
    obtain ⟨h1, h2, h3, h4, h5⟩ := ih
    have hlen : ∀ l : List bitcask_keydir_entry, l.length = (l.map (fun e => e.key)).length :=
      fun l => (List.length_map _ _).symm
    rw [hlen] at h2
    have hold : ∀ n, n < ops.length → (ops ++ [op])[n]? = ops[n]? :=
      fun n hn => List.getElem?_append_left hn
    have h5' : ∀ j n : Nat, (run_created ops).2[j]? = some n →
        ∃ k f v p t, (ops ++ [op])[n]? = some (keydir_op.put k f v p t) ∧
          ((run_ops bitcask_nifs_keydir_new ops).keydir.map (fun e => e.key))[j]? = some k := by
      intro j n hj
      obtain ⟨k, f, v, p, t, ho, hk⟩ := h5 j n hj
      exact ⟨k, f, v, p, t, (hold n (h4 n (List.getElem?_mem hj))).trans ho, hk⟩
    have h4' : ∀ n ∈ (run_created ops).2, n < (ops ++ [op]).length := by
      intro n hn
      have := h4 n hn
      simp
      omega
    have hfst : (run_created (ops ++ [op])).1 = run_ops bitcask_nifs_keydir_new (ops ++ [op]) := by
      rw [run_created_concat, run_ops_concat]
      simp only [created_step, h1]
    refine ⟨hfst, ?_⟩
    rw [hlen, run_ops_concat]
    cases op with
    | put key f v p t =>
      cases hf : KEYDIR_HASH_FIND (run_ops bitcask_nifs_keydir_new ops).keydir key with
      | none =>
        have hsnd : (run_created (ops ++ [keydir_op.put key f v p t])).2 =
            (run_created ops).2 ++ [ops.length] := by
          rw [run_created_concat]
          simp only [created_step, h1, hf]
        rw [hsnd, keys_put_none _ key f v p t hf]
        refine ⟨by simp [h2], ?_, ?_, ?_⟩
        · rw [List.pairwise_append]
          refine ⟨h3, List.pairwise_singleton _ _, ?_⟩
          intro a ha b hb
          rw [List.mem_singleton] at hb
          subst hb
          exact h4 a ha
        · intro n hn
          rcases List.mem_append.1 hn with h | h
          · exact h4' n h
          · rw [List.mem_singleton] at h
            subst h
            simp
        · intro j n hj
          rcases Nat.lt_or_ge j (run_created ops).2.length with hlt | hge
          · rw [List.getElem?_append_left hlt] at hj
            obtain ⟨k, f2, v2, p2, t2, ho, hk⟩ := h5' j n hj
            refine ⟨k, f2, v2, p2, t2, ho, ?_⟩
            rw [List.getElem?_append_left (by omega)]
            exact hk
          · rw [List.getElem?_append_right hge] at hj
            have hj0 : j - (run_created ops).2.length = 0 := by
              rcases Nat.eq_zero_or_pos (j - (run_created ops).2.length) with h | h
              · exact h
              · rw [List.getElem?_eq_none (by simp only [List.length_singleton]; omega)] at hj
                cases hj
            rw [hj0] at hj
            simp at hj
            subst hj
            refine ⟨key, f, v, p, t, by simp, ?_⟩
            have hjeq : j = ((run_ops bitcask_nifs_keydir_new ops).keydir.map
                (fun e => e.key)).length := by omega
            rw [hjeq, List.getElem?_concat_length]
      | some i =>
        have hsnd : (run_created (ops ++ [keydir_op.put key f v p t])).2 =
            (run_created ops).2 := by
          rw [run_created_concat]
          simp only [created_step, h1, hf]
        rw [hsnd, keys_put_some _ key f v p t i hf]
        exact ⟨h2, h3, h4', h5'⟩
    | remove key =>
      cases hf : KEYDIR_HASH_FIND (run_ops bitcask_nifs_keydir_new ops).keydir key with
      | none =>
        have hsnd : (run_created (ops ++ [keydir_op.remove key])).2 = (run_created ops).2 := by
          rw [run_created_concat]
          simp only [created_step, h1, hf]
        rw [hsnd, keys_remove_none _ key hf]
        exact ⟨h2, h3, h4', h5'⟩
      | some i =>
        have hsnd : (run_created (ops ++ [keydir_op.remove key])).2 =
            (run_created ops).2.eraseIdx i := by
          rw [run_created_concat]
          simp only [created_step, h1, hf]
        rw [hsnd, keys_remove_some _ key i hf]
        have hsub := List.eraseIdx_sublist (run_created ops).2 i
        refine ⟨?_, h3.sublist hsub, fun n hn => h4' n (hsub.subset hn), ?_⟩
        · rw [List.length_eraseIdx, List.length_eraseIdx, h2]
        · intro j n hj
          rw [List.getElem?_eraseIdx] at hj
          rw [List.getElem?_eraseIdx]
          by_cases hji : j < i
          · rw [if_pos hji] at hj ⊢
            exact h5' j n hj
          · rw [if_neg hji] at hj ⊢
            exact h5' (j + 1) n hj

/-! ## Stores built by put and remove calls -/

/-- The data model is kept by every sequence of calls whose puts have keys shorter than `2^16`
bytes; the keys of the removes may have any length. -/
theorem run_ops_wf_puts (S : bitcask_keydir_handle) (ops : List keydir_op) (hwf : keydir_wf S)
    (hshort : ∀ op ∈ ops, put_key_in_range op = true) : keydir_wf (run_ops S ops) := by
  induction ops generalizing S with
  | nil => exact hwf
  | cons op ops ih =>
    have hop := hshort op (List.mem_cons_self _ _)
    have hrest : ∀ o ∈ ops, put_key_in_range o = true :=
      fun o ho => hshort o (List.mem_cons_of_mem _ ho)
    show keydir_wf (run_ops (apply_op S op) ops)
    apply ih _ _ hrest
    cases op with
    | put key f v p t =>
      have hlen : key.length < UINT16_RANGE := by simpa [put_key_in_range] using hop
      exact put_wf S key f v p t hwf hlen
    | remove key => exact remove_wf S key hwf

theorem built_wf (ops : List keydir_op) (hshort : ∀ op ∈ ops, put_key_in_range op = true) :
    keydir_wf (run_ops bitcask_nifs_keydir_new ops) ∧
    key_sz_in_range (run_ops bitcask_nifs_keydir_new ops) :=
  ⟨run_ops_wf_puts _ ops keydir_wf_new hshort,
    run_ops_key_sz_in_range _ ops key_sz_in_range_new⟩

/-- The store after `put("a",7,7,7,7)` and the put of a key of `2^16 + 1` bytes that starts with
`"a"`: two entries linked under `"a"`. -/
theorem dup_store (rest : ErlNifBinary) (hrest : rest.length = 65536) :
    run_ops bitcask_nifs_keydir_new
      [keydir_op.put [97] 7 7 7 7, keydir_op.put (97 :: rest) 1 1 0 5] =
      ⟨[⟨7, 7, 7, 7, 1, [97]⟩, ⟨1, 1, 0, 5, 1, 97 :: rest⟩], 2, 65538⟩ := by
  have h1 : bitcask_nifs_keydir_put bitcask_nifs_keydir_new [97] 7 7 7 7 =
      (put_result.ok, ⟨[⟨7, 7, 7, 7, 1, [97]⟩], 1, 1⟩) := rfl
  have hf : KEYDIR_HASH_FIND [(⟨7, 7, 7, 7, 1, [97]⟩ : bitcask_keydir_entry)] (97 :: rest) =
      none := by
    simp [KEYDIR_HASH_FIND, hh_match, hrest]
  have hrun : run_ops bitcask_nifs_keydir_new
      [keydir_op.put [97] 7 7 7 7, keydir_op.put (97 :: rest) 1 1 0 5] =
      (bitcask_nifs_keydir_put (bitcask_nifs_keydir_put bitcask_nifs_keydir_new [97] 7 7 7 7).2
        (97 :: rest) 1 1 0 5).2 := rfl
  rw [hrun, h1, put_of_find_none _ _ _ _ _ _ hf]
  simp [hrest, UINT16_RANGE]

/-- What the store with two entries under `"a"` answers: `"a"` is present, `remove("a")` leaves
`"a"` present, a put to `"a"` with tstamp 2 after the remove is rejected, and a traversal yields
two tuples for `"a"`. -/
theorem dup_store_facts (rest : ErlNifBinary) (hrest : rest.length = 65536) :
    bitcask_nifs_keydir_get
      (run_ops bitcask_nifs_keydir_new
        [keydir_op.put [97] 7 7 7 7, keydir_op.put (97 :: rest) 1 1 0 5]) [97] =
      get_result.bitcask_entry [97] 7 7 7 7 ∧
    bitcask_nifs_keydir_get
      (bitcask_nifs_keydir_remove
        (run_ops bitcask_nifs_keydir_new
          [keydir_op.put [97] 7 7 7 7, keydir_op.put (97 :: rest) 1 1 0 5]) [97]).2 [97] =
      get_result.bitcask_entry [97] 1 1 0 5 ∧
    (bitcask_nifs_keydir_put
      (bitcask_nifs_keydir_remove
        (run_ops bitcask_nifs_keydir_new
          [keydir_op.put [97] 7 7 7 7, keydir_op.put (97 :: rest) 1 1 0 5]) [97]).2
      [97] 9 9 9 2).1 = put_result.already_exists ∧
    keydir_traverse
      (run_ops bitcask_nifs_keydir_new
        [keydir_op.put [97] 7 7 7 7, keydir_op.put (97 :: rest) 1 1 0 5]) (fun _ => true) 3 =
      ([get_result.bitcask_entry [97] 7 7 7 7, get_result.bitcask_entry [97] 1 1 0 5],
        traversal_end.not_found) := by
  rw [dup_store rest hrest]
  refine ⟨?_, ?_, ?_, ?_⟩
  · simp [bitcask_nifs_keydir_get, KEYDIR_HASH_FIND, hh_match, hh_key]
  · simp [bitcask_nifs_keydir_get, bitcask_nifs_keydir_remove, HASH_DEL, KEYDIR_HASH_FIND,
      hh_match, hh_key]
  · simp [bitcask_nifs_keydir_put, bitcask_nifs_keydir_remove, HASH_DEL, KEYDIR_HASH_FIND,
      hh_match, hh_key]
  · simp [keydir_traverse, bitcask_nifs_keydir_itr, itr_loop, bitcask_nifs_keydir_itr_next,
      hh_key]

/-- With an entry for `"a"`, a second entry linked under `"a"` and an entry for `"c"`, the key
`"a"` removed and put again is yielded first. -/
theorem dup_store_reput (rest : ErlNifBinary) (hrest : rest.length = 65536) :
    keydir_traversal
      (run_ops bitcask_nifs_keydir_new
        [keydir_op.put [97] 7 7 7 7, keydir_op.put (97 :: rest) 1 1 0 5,
          keydir_op.put [99] 3 3 3 3, keydir_op.remove [97], keydir_op.put [97] 9 9 9 9]) =
      [get_result.bitcask_entry [97] 9 9 9 9, get_result.bitcask_entry [99] 3 3 3 3] := by
  have hsplit : run_ops bitcask_nifs_keydir_new
      [keydir_op.put [97] 7 7 7 7, keydir_op.put (97 :: rest) 1 1 0 5,
        keydir_op.put [99] 3 3 3 3, keydir_op.remove [97], keydir_op.put [97] 9 9 9 9] =
      run_ops (run_ops bitcask_nifs_keydir_new
        [keydir_op.put [97] 7 7 7 7, keydir_op.put (97 :: rest) 1 1 0 5])
        [keydir_op.put [99] 3 3 3 3, keydir_op.remove [97], keydir_op.put [97] 9 9 9 9] := rfl
  rw [hsplit, dup_store rest hrest, keydir_traversal_eq]
  simp [run_ops, apply_op, bitcask_nifs_keydir_put, bitcask_nifs_keydir_remove, HASH_DEL,
    KEYDIR_HASH_ADD, KEYDIR_HASH_FIND, hh_match, hh_key, entry_term, UINT16_RANGE]

/-! ## C6: removal of a present key -/

/-- C6 as stated fails: after `put("a",7,7,7,7)` and the put of the key of `2^16 + 1` bytes that
starts with `"a"`, the key `"a"` is present, and after `remove("a")` the following `get("a")`
still answers an entry. -/
theorem remove_present_long_key_counterexample :
    bitcask_nifs_keydir_get
      (run_ops bitcask_nifs_keydir_new
        [keydir_op.put [97] 7 7 7 7, keydir_op.put long_key 1 1 0 5]) [97] =
      get_result.bitcask_entry [97] 7 7 7 7 ∧
    bitcask_nifs_keydir_get
      (bitcask_nifs_keydir_remove
        (run_ops bitcask_nifs_keydir_new
          [keydir_op.put [97] 7 7 7 7, keydir_op.put long_key 1 1 0 5]) [97]).2 [97] =
      get_result.bitcask_entry [97] 1 1 0 5 :=
  ⟨(dup_store_facts (List.replicate 65536 0) (List.length_replicate 65536 0)).1,
    (dup_store_facts (List.replicate 65536 0) (List.length_replicate 65536 0)).2.1⟩

/-- C6 (amended): for every store built from the new store by put and remove calls whose put
keys are shorter than `2^16` bytes, in which key `k` is present, `remove k` answers `ok`, a
following `get k` answers `not_found`, `key_count` has decreased by 1 and `key_bytes` has
decreased by the length of `k`. -/
theorem remove_present (ops : List keydir_op) (k : ErlNifBinary) (f v p t : Nat)
    (hshort : ∀ op ∈ ops, put_key_in_range op = true)
    (hpres : bitcask_nifs_keydir_get (run_ops bitcask_nifs_keydir_new ops) k =
      get_result.bitcask_entry k f v p t) :
    (bitcask_nifs_keydir_remove (run_ops bitcask_nifs_keydir_new ops) k).1 = remove_result.ok ∧
    bitcask_nifs_keydir_get
      (bitcask_nifs_keydir_remove (run_ops bitcask_nifs_keydir_new ops) k).2 k =
      get_result.not_found ∧
    (bitcask_nifs_keydir_remove (run_ops bitcask_nifs_keydir_new ops) k).2.key_count + 1 =
      (run_ops bitcask_nifs_keydir_new ops).key_count ∧
    (bitcask_nifs_keydir_remove (run_ops bitcask_nifs_keydir_new ops) k).2.key_bytes + k.length =
      (run_ops bitcask_nifs_keydir_new ops).key_bytes := by
  have hwf := (built_wf ops hshort).1
  exact remove_present_wf (run_ops bitcask_nifs_keydir_new ops) k f v p t hwf hpres

/-- Witness of `remove_present`: `"k1"` and `"k2"` are put, `"k2"` is removed and put again, then
`"k1"` is removed. -/
theorem remove_present_witness :
    (∀ op ∈ [keydir_op.put key_k1 1 10 0 100, keydir_op.put key_k2 2 2 0 5,
        keydir_op.remove key_k2, keydir_op.put key_k2 3 3 3 3],
      put_key_in_range op = true) ∧
    bitcask_nifs_keydir_get
      (run_ops bitcask_nifs_keydir_new
        [keydir_op.put key_k1 1 10 0 100, keydir_op.put key_k2 2 2 0 5,
          keydir_op.remove key_k2, keydir_op.put key_k2 3 3 3 3]) key_k1 =
      get_result.bitcask_entry key_k1 1 10 0 100 ∧
    bitcask_nifs_keydir_get
      (bitcask_nifs_keydir_remove
        (run_ops bitcask_nifs_keydir_new
          [keydir_op.put key_k1 1 10 0 100, keydir_op.put key_k2 2 2 0 5,
            keydir_op.remove key_k2, keydir_op.put key_k2 3 3 3 3]) key_k1).2 key_k1 =
      get_result.not_found ∧
    (bitcask_nifs_keydir_remove
      (run_ops bitcask_nifs_keydir_new
        [keydir_op.put key_k1 1 10 0 100, keydir_op.put key_k2 2 2 0 5,
          keydir_op.remove key_k2, keydir_op.put key_k2 3 3 3 3]) key_k1).2.key_count + 1 =
      2 :=
  ⟨by decide, by decide,
    (remove_present
      [keydir_op.put key_k1 1 10 0 100, keydir_op.put key_k2 2 2 0 5,
        keydir_op.remove key_k2, keydir_op.put key_k2 3 3 3 3]
      key_k1 1 10 0 100 (by decide) (by decide)).2.1,
    (remove_present
      [keydir_op.put key_k1 1 10 0 100, keydir_op.put key_k2 2 2 0 5,
        keydir_op.remove key_k2, keydir_op.put key_k2 3 3 3 3]
      key_k1 1 10 0 100 (by decide) (by decide)).2.2.1.trans (by decide)⟩

/-! ## C19: no tombstone -/

/-- C19 as stated fails: after `put("a",7,7,7,7)` and the put of the key of `2^16 + 1` bytes
that starts with `"a"`, the key `"a"` is present with stored tstamp 7, and after `remove("a")`
the put to `"a"` with tstamp 2 is answered `already_exists`. -/
theorem no_tombstone_long_key_counterexample :
    bitcask_nifs_keydir_get
      (run_ops bitcask_nifs_keydir_new
        [keydir_op.put [97] 7 7 7 7, keydir_op.put long_key 1 1 0 5]) [97] =
      get_result.bitcask_entry [97] 7 7 7 7 ∧
    (bitcask_nifs_keydir_put
      (bitcask_nifs_keydir_remove
        (run_ops bitcask_nifs_keydir_new
          [keydir_op.put [97] 7 7 7 7, keydir_op.put long_key 1 1 0 5]) [97]).2
      [97] 9 9 9 2).1 = put_result.already_exists :=
  ⟨(dup_store_facts (List.replicate 65536 0) (List.length_replicate 65536 0)).1,
    (dup_store_facts (List.replicate 65536 0) (List.length_replicate 65536 0)).2.2.1⟩

/-- C19 (amended): for every store built from the new store by put and remove calls whose put
keys are shorter than `2^16` bytes, in which key `k` is present with stored timestamp `T`,
after `remove k` a put to `k` with any tstamp `t`, also `t < T`, answers `ok` and `get k` then
returns that put's parameters. -/
theorem no_tombstone (ops : List keydir_op) (k : ErlNifBinary) (f0 v0 p0 T : Nat)
    (hshort : ∀ op ∈ ops, put_key_in_range op = true)
    (hpres : bitcask_nifs_keydir_get (run_ops bitcask_nifs_keydir_new ops) k =
      get_result.bitcask_entry k f0 v0 p0 T) :
    ∀ f v p t,
      (bitcask_nifs_keydir_put
        (bitcask_nifs_keydir_remove (run_ops bitcask_nifs_keydir_new ops) k).2 k f v p t).1 =
        put_result.ok ∧
      bitcask_nifs_keydir_get
        (bitcask_nifs_keydir_put
          (bitcask_nifs_keydir_remove (run_ops bitcask_nifs_keydir_new ops) k).2 k f v p t).2 k =
        get_result.bitcask_entry k f v p t := by
  obtain ⟨hwf, hrange⟩ := built_wf ops hshort
  exact no_tombstone_wf (run_ops bitcask_nifs_keydir_new ops) k f0 v0 p0 T hwf hrange hpres

/-- Witness of `no_tombstone`: `"k1"` stored with tstamp 100 next to `"k2"` is removed and put
again with tstamp 50. -/
theorem no_tombstone_witness :
    (∀ op ∈ [keydir_op.put key_k1 1 10 0 100, keydir_op.put key_k2 2 2 0 5],
      put_key_in_range op = true) ∧
    bitcask_nifs_keydir_get
      (run_ops bitcask_nifs_keydir_new
        [keydir_op.put key_k1 1 10 0 100, keydir_op.put key_k2 2 2 0 5]) key_k1 =
      get_result.bitcask_entry key_k1 1 10 0 100 ∧
    (bitcask_nifs_keydir_put
      (bitcask_nifs_keydir_remove
        (run_ops bitcask_nifs_keydir_new
          [keydir_op.put key_k1 1 10 0 100, keydir_op.put key_k2 2 2 0 5]) key_k1).2
      key_k1 1 20 10 50).1 = put_result.ok ∧
    bitcask_nifs_keydir_get
      (bitcask_nifs_keydir_put
        (bitcask_nifs_keydir_remove
          (run_ops bitcask_nifs_keydir_new
            [keydir_op.put key_k1 1 10 0 100, keydir_op.put key_k2 2 2 0 5]) key_k1).2
        key_k1 1 20 10 50).2 key_k1 = get_result.bitcask_entry key_k1 1 20 10 50 :=
  ⟨by decide, by decide,
    no_tombstone [keydir_op.put key_k1 1 10 0 100, keydir_op.put key_k2 2 2 0 5]
      key_k1 1 10 0 100 (by decide) (by decide) 1 20 10 50⟩

/-! ## C10: traversal -/

/-- C10 as stated fails, in two ways. The store that holds only `"k1"` is non-empty, `begin`
returns a cursor, and when the allocation of the key binary fails the first `advance` answers
`allocation_error`: the traversal ends without having yielded the entry. And after
`put("a",7,7,7,7)` and the put of the key of `2^16 + 1` bytes that starts with `"a"`, with every
allocation succeeding, the traversal yields two tuples for `"a"`, of which `get("a")` answers
one. -/
theorem traverse_allocation_counterexample :
    (keydir_wf store_k1 ∧
      bitcask_nifs_keydir_get store_k1 key_k1 = get_result.bitcask_entry key_k1 1 10 0 100 ∧
      bitcask_nifs_keydir_itr store_k1 = itr_result.cursor 0 ∧
      bitcask_nifs_keydir_itr_next store_k1.keydir false (some 0) =
        some itr_next_result.allocation_error ∧
      keydir_traverse store_k1 (fun _ => false) 2 = ([], traversal_end.allocation_error)) ∧
    (keydir_traverse
      (run_ops bitcask_nifs_keydir_new
        [keydir_op.put [97] 7 7 7 7, keydir_op.put long_key 1 1 0 5]) (fun _ => true) 3 =
      ([get_result.bitcask_entry [97] 7 7 7 7, get_result.bitcask_entry [97] 1 1 0 5],
        traversal_end.not_found) ∧
      bitcask_nifs_keydir_get
        (run_ops bitcask_nifs_keydir_new
          [keydir_op.put [97] 7 7 7 7, keydir_op.put long_key 1 1 0 5]) [97] =
        get_result.bitcask_entry [97] 7 7 7 7) :=
  ⟨by decide,
    (dup_store_facts (List.replicate 65536 0) (List.length_replicate 65536 0)).2.2.2,
    (dup_store_facts (List.replicate 65536 0) (List.length_replicate 65536 0)).1⟩

/-- C10 (amended): for every non-empty store built from the new store by put and remove calls
whose put keys are shorter than `2^16` bytes and not mutated during the traversal, when the
allocation of the key binary succeeds in every `advance`, `begin` followed by repeated `advance`
on the returned cursors ends with `not_found` after more than `key_count` calls at the latest,
has yielded exactly `key_count` tuples, no tuple twice, and the tuples yielded are exactly the
tuples that `get` answers for the keys of the store. -/
theorem traverse_yields_all (ops : List keydir_op) (alloc : Nat → Bool) (fuel : Nat)
    (hshort : ∀ op ∈ ops, put_key_in_range op = true)
    (hne : (run_ops bitcask_nifs_keydir_new ops).keydir ≠ []) (hall : ∀ n, alloc n = true)
    (hfuel : (run_ops bitcask_nifs_keydir_new ops).key_count < fuel) :
    keydir_traverse (run_ops bitcask_nifs_keydir_new ops) alloc fuel =
      ((run_ops bitcask_nifs_keydir_new ops).keydir.map entry_term, traversal_end.not_found) ∧
    (keydir_traverse (run_ops bitcask_nifs_keydir_new ops) alloc fuel).1.length =
      (run_ops bitcask_nifs_keydir_new ops).key_count ∧
    (keydir_traverse (run_ops bitcask_nifs_keydir_new ops) alloc fuel).1.Nodup ∧
    (∀ k f v p t,
      get_result.bitcask_entry k f v p t ∈
          (keydir_traverse (run_ops bitcask_nifs_keydir_new ops) alloc fuel).1 ↔
        bitcask_nifs_keydir_get (run_ops bitcask_nifs_keydir_new ops) k =
          get_result.bitcask_entry k f v p t) ∧
    get_result.not_found ∉
      (keydir_traverse (run_ops bitcask_nifs_keydir_new ops) alloc fuel).1 := by
  have hwf := (built_wf ops hshort).1
  exact traverse_yields_all_wf (run_ops bitcask_nifs_keydir_new ops) alloc fuel hwf hne hall hfuel

/-- Witness of `traverse_yields_all`: the traversal of the store built by the puts of `"k1"` and
`"k2"` yields the two tuples and ends with `not_found`. -/
theorem traverse_yields_all_witness :
    (∀ op ∈ [keydir_op.put key_k1 1 10 0 100, keydir_op.put key_k2 2 2 0 5],
      put_key_in_range op = true) ∧
    (run_ops bitcask_nifs_keydir_new
      [keydir_op.put key_k1 1 10 0 100, keydir_op.put key_k2 2 2 0 5]).keydir ≠ [] ∧
    (∀ n : Nat, (fun _ => true) n = true) ∧
    (run_ops bitcask_nifs_keydir_new
      [keydir_op.put key_k1 1 10 0 100, keydir_op.put key_k2 2 2 0 5]).key_count < 3 ∧
    keydir_traverse
      (run_ops bitcask_nifs_keydir_new
        [keydir_op.put key_k1 1 10 0 100, keydir_op.put key_k2 2 2 0 5]) (fun _ => true) 3 =
      ([get_result.bitcask_entry key_k1 1 10 0 100, get_result.bitcask_entry key_k2 2 2 0 5],
        traversal_end.not_found) :=
  ⟨by decide, by decide, fun _ => rfl, by decide,
    (traverse_yields_all [keydir_op.put key_k1 1 10 0 100, keydir_op.put key_k2 2 2 0 5]
      (fun _ => true) 3 (by decide) (by decide) (fun _ => rfl) (by decide)).1.trans
      (by decide)⟩

/-! ## C20: traversal order -/

theorem map_set_eq (l : List bitcask_keydir_entry) (g : bitcask_keydir_entry → get_result)
    (i : Nat) (e : bitcask_keydir_entry) : (l.set i e).map g = (l.map g).set i (g e) := by
  induction l generalizing i with
  | nil => rfl
  | cons a l ih =>
    cases i with
    | zero => rfl
    | succ j => simp [ih j]

/-- An accepted put to a present key replaces the tuple of the key at its position in the
traversal. -/
theorem put_accepted_traversal (S : bitcask_keydir_handle) (k : ErlNifBinary)
    (f0 v0 p0 T f v p t : Nat)
    (hpres : bitcask_nifs_keydir_get S k = get_result.bitcask_entry k f0 v0 p0 T)
    (hts : T ≤ t) :
    ∃ i : Nat, (keydir_traversal S)[i]? = some (get_result.bitcask_entry k f0 v0 p0 T) ∧
      keydir_traversal (bitcask_nifs_keydir_put S k f v p t).2 =
        (keydir_traversal S).set i (get_result.bitcask_entry k f v p t) := by
  obtain ⟨i, old, hf, he, h1, h2, h3, h4⟩ := (get_entry_iff _ _ _ _ _ _).1 hpres
  obtain ⟨e2, he2, hm⟩ := find_some_get _ _ _ hf
  rw [he] at he2
  cases he2
  have hkey : hh_key old = k := ((hh_match_iff old k).1 hm).2
  have hle : old.tstamp ≤ t := h4 ▸ hts
  refine ⟨i, ?_, ?_⟩
  · rw [keydir_traversal_eq, List.getElem?_map, he]
    simp [entry_term, hkey, h1, h2, h3, h4]
  · rw [keydir_traversal_eq, keydir_traversal_eq,
      (put_accepted_facts S k f v p t i old hf he hle).1]
    show (S.keydir.set i ⟨f, v, p, t, old.key_sz, old.key⟩).map entry_term = _
    rw [map_set_eq]
    have hterm : entry_term ⟨f, v, p, t, old.key_sz, old.key⟩ =
        get_result.bitcask_entry k f v p t := by
      rw [← hkey]
      rfl
    rw [hterm]

/-- C20 as stated fails: after `put("a",7,7,7,7)`, the put of the key of `2^16 + 1` bytes that
starts with `"a"` and `put("c",3,3,3,3)`, the key `"a"` is removed and put again with
`(9,9,9,9)`; the traversal yields `"a"` first and `"c"` last. -/
theorem traversal_order_long_key_counterexample :
    keydir_traversal
      (run_ops bitcask_nifs_keydir_new
        [keydir_op.put [97] 7 7 7 7, keydir_op.put long_key 1 1 0 5,
          keydir_op.put [99] 3 3 3 3, keydir_op.remove [97], keydir_op.put [97] 9 9 9 9]) =
      [get_result.bitcask_entry [97] 9 9 9 9, get_result.bitcask_entry [99] 3 3 3 3] :=
  dup_store_reput (List.replicate 65536 0) (List.length_replicate 65536 0)

/-- C20 (amended): a traversal yields the tuples of the chain from its head on, all of them when
every allocation succeeds; in every store built from the new store by put and remove calls the
entries of the chain stand in the order of the puts that created them (the numbers of the
creating calls increase along the traversal, and the call with the number of an entry is a put
of the key bytes the entry holds); a put to a present key leaves every key at its position, and
an accepted one replaces the tuple of its key at that position; and in a store built by calls
whose put keys are shorter than `2^16` bytes a key that is removed and put again is yielded
last. -/
theorem traversal_insertion_order :
    (∀ S alloc fuel, (keydir_traverse S alloc fuel).1 <+: keydir_traversal S) ∧
    (∀ ops : List keydir_op,
      (run_created ops).2.length = (keydir_traversal (run_ops bitcask_nifs_keydir_new ops)).length ∧
      (run_created ops).2.Pairwise (· < ·) ∧
      ∀ j n : Nat, (run_created ops).2[j]? = some n →
        ∃ k f v p t e, ops[n]? = some (keydir_op.put k f v p t) ∧
          (run_ops bitcask_nifs_keydir_new ops).keydir[j]? = some e ∧ e.key = k ∧
          (keydir_traversal (run_ops bitcask_nifs_keydir_new ops))[j]? = some (entry_term e)) ∧
    (∀ S k f v p t, bitcask_nifs_keydir_get S k ≠ get_result.not_found →
      (keydir_traversal (bitcask_nifs_keydir_put S k f v p t).2).map get_result.key =
        (keydir_traversal S).map get_result.key) ∧
    (∀ S k f0 v0 p0 T f v p t,
      bitcask_nifs_keydir_get S k = get_result.bitcask_entry k f0 v0 p0 T → T ≤ t →
      ∃ i : Nat, (keydir_traversal S)[i]? = some (get_result.bitcask_entry k f0 v0 p0 T) ∧
        keydir_traversal (bitcask_nifs_keydir_put S k f v p t).2 =
          (keydir_traversal S).set i (get_result.bitcask_entry k f v p t)) ∧
    (∀ (ops : List keydir_op) k f v p t, (∀ op ∈ ops, put_key_in_range op = true) →
      bitcask_nifs_keydir_get (run_ops bitcask_nifs_keydir_new ops) k ≠ get_result.not_found →
      keydir_traversal
        (bitcask_nifs_keydir_put
          (bitcask_nifs_keydir_remove (run_ops bitcask_nifs_keydir_new ops) k).2 k f v p t).2 =
        keydir_traversal (bitcask_nifs_keydir_remove (run_ops bitcask_nifs_keydir_new ops) k).2 ++
          [get_result.bitcask_entry k f v p t]) := by
  refine ⟨?_, ?_, ?_, ?_, ?_⟩
  · intro S alloc fuel
    rw [keydir_traversal_eq]
    exact keydir_traverse_prefix S alloc fuel
  · intro ops
    obtain ⟨-, h2, h3, -, h5⟩ := run_created_inv ops
    refine ⟨by rw [keydir_traversal_eq, List.length_map, h2], h3, ?_⟩
    intro j n hj
    obtain ⟨k, f, v, p, t, ho, hk⟩ := h5 j n hj
    rw [List.getElem?_map] at hk
    obtain ⟨e, he, hek⟩ := Option.map_eq_some'.1 hk
    refine ⟨k, f, v, p, t, e, ho, he, hek, ?_⟩
    rw [keydir_traversal_eq, List.getElem?_map, he]
    rfl
  · intro S k f v p t hpres
    cases hf : KEYDIR_HASH_FIND S.keydir k with
    | none => exact absurd (get_of_find_none S k hf) hpres
    | some i =>
      rw [keydir_traversal_eq, keydir_traversal_eq, List.map_map, List.map_map]
      exact (put_present_keys S k f v p t i hf).1
  · intro S k f0 v0 p0 T f v p t hpres hts
    exact put_accepted_traversal S k f0 v0 p0 T f v p t hpres hts
  · intro ops k f v p t hshort hpres
    obtain ⟨hwf, hrange⟩ := built_wf ops hshort
    cases hf : KEYDIR_HASH_FIND (run_ops bitcask_nifs_keydir_new ops).keydir k with
    | none => exact absurd (get_of_find_none _ k hf) hpres
    | some i =>
      obtain ⟨e, he, hm⟩ := find_some_get _ _ _ hf
      have hlen : k.length < UINT16_RANGE := by
        rw [← ((hh_match_iff e k).1 hm).1]
        exact hrange e (List.getElem?_mem he)
      exact put_absent_traversal _ k f v p t (find_remove_self _ k hwf) hlen

/-- Witness of `traversal_insertion_order`: `"k1"` and `"k2"` are put, `"k1"` is overwritten,
removed and put again; before the removal the traversal yields `"k1"` with the new fields and
then `"k2"`, at the end `"k2"` and then `"k1"`, created by the calls number 1 and 4. -/
theorem traversal_insertion_order_witness :
    keydir_traversal (run_ops bitcask_nifs_keydir_new
      [keydir_op.put key_k1 1 10 0 100, keydir_op.put key_k2 1 1 0 5,
        keydir_op.put key_k1 9 9 9 200]) =
      [get_result.bitcask_entry key_k1 9 9 9 200, get_result.bitcask_entry key_k2 1 1 0 5] ∧
    (∀ op ∈ [keydir_op.put key_k1 1 10 0 100, keydir_op.put key_k2 1 1 0 5,
        keydir_op.put key_k1 9 9 9 200],
      put_key_in_range op = true) ∧
    keydir_traversal
      (bitcask_nifs_keydir_put
        (bitcask_nifs_keydir_remove
          (run_ops bitcask_nifs_keydir_new
            [keydir_op.put key_k1 1 10 0 100, keydir_op.put key_k2 1 1 0 5,
              keydir_op.put key_k1 9 9 9 200]) key_k1).2 key_k1 3 3 3 3).2 =
      [get_result.bitcask_entry key_k2 1 1 0 5, get_result.bitcask_entry key_k1 3 3 3 3] ∧
    (run_created
      [keydir_op.put key_k1 1 10 0 100, keydir_op.put key_k2 1 1 0 5,
        keydir_op.put key_k1 9 9 9 200, keydir_op.remove key_k1,
        keydir_op.put key_k1 3 3 3 3]).2 = [1, 4] ∧
    (run_created
      [keydir_op.put key_k1 1 10 0 100, keydir_op.put key_k2 1 1 0 5,
        keydir_op.put key_k1 9 9 9 200, keydir_op.remove key_k1,
        keydir_op.put key_k1 3 3 3 3]).2.Pairwise (· < ·) :=
  ⟨by decide, by decide,
    (traversal_insertion_order.2.2.2.2
      [keydir_op.put key_k1 1 10 0 100, keydir_op.put key_k2 1 1 0 5,
        keydir_op.put key_k1 9 9 9 200] key_k1 3 3 3 3 (by decide) (by decide)).trans
      (by decide),
    by decide,
    (traversal_insertion_order.2.1
      [keydir_op.put key_k1 1 10 0 100, keydir_op.put key_k2 1 1 0 5,
        keydir_op.put key_k1 9 9 9 200, keydir_op.remove key_k1,
        keydir_op.put key_k1 3 3 3 3]).2.1⟩

end Bitcask
